import Mathlib

/-
  Verification development for the Disk Space Analyzer engine
  (src/Disk Space Analyzer/main.py, class DiskAnalyzer).

  The filesystem is modelled as a finite tree of entries.  A file node
  carries the size reported by `os.stat`/`os.path.getsize` (the `sz`
  field), the byte sequence returned by reading it (`content`), and two
  flags: `statOk` (stat/getsize succeeds) and `readOk` (opening and
  reading the content for hashing succeeds).  A directory carries a
  `listable` flag (`os.scandir` succeeds) and its children in listing
  order.  A symbolic link carries its target; links are always resolved
  by the operations that follow symlinks (`is_file`, `is_dir`, `open`,
  `os.walk` on the argument itself) and never by
  `is_dir(follow_symlinks=False)`.  Dangling links are not modelled.

  MD5 is modelled as a collision-free digest: the digest of a byte
  sequence is the sequence itself.  The specification accepts hash
  collisions as out of scope, and every claim about digests is a claim
  about equality of the hashed bytes.
-/

set_option maxRecDepth 4000

inductive FSNode where
  | file (nm : String) (sz : Nat) (content : List Nat) (statOk : Bool) (readOk : Bool)
  | dir (nm : String) (listable : Bool) (children : List FSNode)
  | symlink (nm : String) (target : FSNode)

/-- The entry's own name (the last path component under which it is listed). -/
def FSNode.name : FSNode → String
  | .file n _ _ _ _ => n
  | .dir n _ _ => n
  | .symlink n _ => n

/-- `item.is_dir(follow_symlinks=False)` (main.py line 139): true for a real
directory only, never for a symbolic link. -/
def FSNode.isDirNoFollow : FSNode → Bool
  | .dir _ _ _ => true
  | _ => false

/-- Resolution of a chain of symbolic links, as performed by every
filesystem call that follows links (`stat`, `open`, `is_file`, `is_dir`). -/
def resolve : FSNode → FSNode
  | .symlink _ t => resolve t
  | n => n

/-- Non-fatal failures collected in `self.errors`.  One constructor per
`self.errors.append` site of the source; constructors whose guarded
operation is total in this model are never produced.  Each error carries
the root-relative path it names. -/
inductive ScanError where
  /-- line 145: `os.scandir` failed inside `safe_walk`. -/
  | scanDir (p : List String)
  /-- line 143: the recursive `yield from` raised (dead in the source: the
  inner generator catches everything). -/
  | cannotAccess (p : List String)
  /-- line 95: `os.stat` failed inside `get_file_info`. -/
  | readFile (p : List String)
  /-- line 123: the `os.walk` loop of `calculate_folder_size` raised. -/
  | folderSize (p : List String)
  /-- line 196: building a folder record raised. -/
  | processFolder (p : List String)
  /-- line 199: processing a yielded item raised. -/
  | processItem (p : List String)
  /-- line 202: the driving loop itself raised. -/
  | critical
  /-- line 220: computing the synthesised root record raised. -/
  | rootFolder
deriving DecidableEq, Repr

mutual
/-- `DiskAnalyzer.safe_walk` (lines 127-145) together with the filesystem
entry each yielded path designates.  The source yields `Path` objects and
the driver re-queries the unchanged filesystem by path; since a real
directory cannot hold two children with the same name, that query returns
exactly the scandir entry the yield came from, so the model pairs the two.
`os.scandir` on a non-directory or an unlistable directory raises, which
the `except` at line 144 turns into an `Error scanning` entry; `os.scandir`
on a symlink follows it.  Recursion happens only for
`is_dir(follow_symlinks=False)` entries (line 139),
handled child by child by `walkItems`. -/
def safe_walk (pfx : List String) : FSNode → List (List String × FSNode) × List ScanError
  | .symlink _ t => safe_walk pfx t
  | .dir _ true cs => walkItems pfx cs
  | _ => ([], [.scanDir pfx])

def walkItems (pfx : List String) : List FSNode → List (List String × FSNode) × List ScanError
  | [] => ([], [])
  | c :: rest =>
      let p := pfx ++ [c.name]
      let sub := if c.isDirNoFollow then safe_walk p c else (([] : List (List String × FSNode)), ([] : List ScanError))
      let rst := walkItems pfx rest
      ((p, c) :: (sub.1 ++ rst.1), sub.2 ++ rst.2)
end

/-- The sequence of paths `safe_walk` yields. -/
def walkPaths (pfx : List String) (n : FSNode) : List (List String) :=
  (safe_walk pfx n).1.map Prod.fst

/-- The errors `safe_walk` appends while being consumed. -/
def walkErrors (pfx : List String) (n : FSNode) : List ScanError :=
  (safe_walk pfx n).2

mutual
/-- Every directory of the tree lists each child name at most once (true of
every real filesystem). -/
def wellFormedB : FSNode → Bool
  | .file _ _ _ _ _ => true
  | .symlink _ t => wellFormedB t
  | .dir _ _ cs => decide ((cs.map FSNode.name).Nodup) && wellFormedAll cs

def wellFormedAll : List FSNode → Bool
  | [] => true
  | c :: r => wellFormedB c && wellFormedAll r
end

mutual
/-- Every directory of the tree (symlink targets aside, which the scan
never lists) can be listed. -/
def allListableB : FSNode → Bool
  | .file _ _ _ _ _ => true
  | .symlink _ _ => true
  | .dir _ b cs => b && allListableAll cs

def allListableAll : List FSNode → Bool
  | [] => true
  | c :: r => allListableB c && allListableAll r
end

/-- Pure tree lookup: the entry a root-relative path designates, descending
through directory children only and never through a symbolic link.  The
reachable entries of a root are exactly the nonempty paths on which this
lookup succeeds. -/
def entryAt : FSNode → List String → Option FSNode
  | n, [] => some n
  | n, s :: rest =>
      match n with
      | .dir _ _ cs =>
          match cs.find? (fun c => c.name == s) with
          | some c => entryAt c rest
          | none => none
      | _ => none

/-- The bytes `get_file_hash` feeds to MD5 (lines 40-47): for a file whose
`os.path.getsize` exceeds 1 MiB only the leading 1 MiB is read, otherwise
the whole content. -/
def hashedBytes (sz : Nat) (content : List Nat) : List Nat :=
  if sz > 1024 * 1024 then content.take (1024 * 1024) else content

/-- `DiskAnalyzer.get_file_hash` (lines 29-51): on any read failure the
bare `except` returns `None`; otherwise the digest of the hashed bytes
(MD5 modelled as collision-free, see the header). -/
def get_file_hash (readOk : Bool) (sz : Nat) (content : List Nat) : Option (List Nat) :=
  if readOk then some (hashedBytes sz content) else none

/-- One member of a duplicate group as registered at lines 87-91. -/
structure DupEntry where
  path : String
  nm : String
  size : Nat
deriving DecidableEq, Repr

/-- `self.duplicates` is a `defaultdict(list)`: an association list from
digest to the group's members in insertion order, keys in first-insertion
order. -/
abbrev DupMap := List (List Nat × List DupEntry)

/-- `self.duplicates[file_hash].append(...)`: append to the group of that
digest, creating the group at the end of the map if absent. -/
def insertDup (m : DupMap) (h : List Nat) (e : DupEntry) : DupMap :=
  match m with
  | [] => [(h, [e])]
  | (h', es) :: rest =>
      if h' = h then (h', es ++ [e]) :: rest else (h', es) :: insertDup rest h e

/-- The map obtained from a sequence of `insert(digest, entry)` calls. -/
def buildDupMap (ins : List (List Nat × DupEntry)) : DupMap :=
  ins.foldl (fun m i => insertDup m i.1 i.2) []

/-- `str(path)` rendering: the root's own string joined with each further
segment by the separator. -/
def pathStr (root : String) (segs : List String) : String :=
  segs.foldl (fun acc s => acc ++ "/" ++ s) root

/-- Position of the last '.' in a list of characters, `str.rfind`. -/
def rfindDot : List Char → Option Nat
  | [] => none
  | c :: rest =>
      match rfindDot rest with
      | some j => some (j + 1)
      | none => if c = '.' then some 0 else none

/-- `PurePath.suffix`: the part of the name from its last dot, empty unless
that dot is neither the first nor the last character. -/
def suffixOf (nm : String) : String :=
  let cs := nm.toList
  match rfindDot cs with
  | some i => if 0 < i ∧ i + 1 < cs.length then String.mk (cs.drop i) else ""
  | none => ""

/-- ASCII lower-casing of `str.lower`. -/
def toLowerStr (s : String) : String :=
  String.mk (s.toList.map Char.toLower)

/-- Line 74: `file_path.suffix.lower() if file_path.suffix else 'no_extension'`. -/
def extensionOf (nm : String) : String :=
  let s := suffixOf nm
  if s = "" then "no_extension" else toLowerStr s

/-- A row of `self.files_data` (lines 70-80).  Timestamps and the
human-readable size, which are presentation data derived from the same
stat call, are not modelled.  `hash` is the optional digest stored at
line 86. -/
structure FileInfo where
  path : String
  nm : String
  parent_folder : String
  extension : String
  size_bytes : Nat
  depth : Nat
  hash : Option (List Nat)
deriving DecidableEq, Repr

/-- A row of `self.folders_data` (lines 184-194 and 208-218). -/
structure FolderInfo where
  path : String
  nm : String
  size_bytes : Nat
  file_count : Nat
  subfolder_count : Nat
  depth : Nat
  total_items : Nat
deriving DecidableEq, Repr

/-- `DiskAnalyzer.get_file_info` (lines 53-96) for the entry at
root-relative path `segs` whose resolved target is a file with the given
stat data.  On stat failure the entry is skipped with an `Error reading
file` entry (lines 94-96).  Otherwise a record is built; only when the
size is under the 100 MiB ceiling is the hash computed (line 83), and only
a successful hash is stored and registered in the duplicate index (lines
85-91; a successful hexdigest is a nonempty string, so its truthiness test
is exactly the `None` test).  `mkFileInfo` is the record of lines 70-86:
name and extension come from the path's last component, the depth is the
number of root-relative path segments, and the `hash` key is present
exactly when the size is under the ceiling and hashing succeeded. -/
def mkFileInfo (root : String) (segs : List String) (sz : Nat)
    (content : List Nat) (readOk : Bool) : FileInfo :=
  { path := pathStr root segs
    nm := segs.getLastD root
    parent_folder := pathStr root segs.dropLast
    extension := extensionOf (segs.getLastD root)
    size_bytes := sz
    depth := segs.length
    hash := if sz < 100 * 1024 * 1024 then get_file_hash readOk sz content else none }

def get_file_info (root : String) (segs : List String) (sz : Nat)
    (content : List Nat) (statOk readOk : Bool) (dups : DupMap) :
    Option FileInfo × DupMap × List ScanError :=
  if statOk then
    let info := mkFileInfo root segs sz content readOk
    let dups' :=
      match info.hash with
      | some h => insertDup dups h ⟨info.path, info.nm, info.size_bytes⟩
      | none => dups
    (some info, dups', [])
  else
    (none, dups, [.readFile segs])

mutual
/-- `DiskAnalyzer.calculate_folder_size` (lines 98-125), the aggregator's
full re-walk via `os.walk`, one level per `walkLevel` call.  `os.walk`
follows a symlink given as its argument but, with the default
`followlinks=False`, lists a symlink to a directory among `dirs` without
descending into it; a symlink to a file is listed among `files` and
`os.path.getsize` follows it.  An unlistable directory contributes nothing
below it (`os.walk` suppresses the error with `onerror=None`), and a file
whose `getsize` fails is counted but contributes no bytes (the inner bare
`except: pass`, lines 119-121).  Neither path appends to the error
sink. -/
def calculate_folder_size : FSNode → Nat × Nat × Nat
  | .symlink _ t => calculate_folder_size t
  | .dir _ true cs => walkLevel cs
  | _ => (0, 0, 0)

def walkLevel : List FSNode → Nat × Nat × Nat
  | [] => (0, 0, 0)
  | c :: rest =>
      let r := walkLevel rest
      let sub := if c.isDirNoFollow then calculate_folder_size c else ((0, 0, 0) : Nat × Nat × Nat)
      match resolve c with
      | .dir _ _ _ => (sub.1 + r.1, sub.2.1 + r.2.1, sub.2.2 + r.2.2 + 1)
      | .file _ sz _ st _ => ((if st then sz else 0) + r.1, r.2.1 + 1, r.2.2)
      | .symlink _ _ => r
end

/-- The extension summary `self.file_types_summary`, a
`defaultdict(lambda: {'count': 0, 'size': 0})` keyed in first-access
order. -/
abbrev TypeMap := List (String × Nat × Nat)

/-- Lines 175-177: `summary[ext]['count'] += 1; summary[ext]['size'] += n`. -/
def bumpType : TypeMap → String → Nat → TypeMap
  | [], e, s => [(e, 1, s)]
  | (e', c, s') :: rest, e, s =>
      if e' = e then (e', c + 1, s' + s) :: rest else (e', c, s') :: bumpType rest e s

def lookupType (ts : TypeMap) (e : String) : Option (Nat × Nat) :=
  (ts.find? (fun t => t.1 == e)).map (fun t => t.2)

/-- The accumulator lists of a `DiskAnalyzer` instance. -/
structure ScanState where
  files : List FileInfo
  folders : List FolderInfo
  types : TypeMap
  dups : DupMap
  errors : List ScanError
deriving Repr

/-- The folder record built at lines 184-194 for a yielded directory. -/
def mkFolderInfo (root : String) (segs : List String) (agg : Nat × Nat × Nat) : FolderInfo :=
  { path := pathStr root segs
    nm := segs.getLastD root
    size_bytes := agg.1
    file_count := agg.2.1
    subfolder_count := agg.2.2
    depth := segs.length
    total_items := agg.2.1 + agg.2.2 }

/-- The loop body of `analyze_directory` (lines 162-199) for one yielded
entry.  `item_path.is_file()` / `is_dir()` follow symlinks, so the entry
is classified by its resolved target; a file is handed to
`get_file_info`, whose stat failure is the model's entry-unreadable path
(a stat that fails inside `is_file()` itself makes the source skip the
entry silently; either way the entry joins no collection).  A directory
is aggregated and recorded. -/
def processEntry (root : String) (st : ScanState) (pe : List String × FSNode) : ScanState :=
  match resolve pe.2 with
  | .file _ sz content statOk readOk =>
      match get_file_info root pe.1 sz content statOk readOk st.dups with
      | (some info, dups', errs) =>
          { st with
            files := st.files ++ [info]
            types := bumpType st.types info.extension info.size_bytes
            dups := dups'
            errors := st.errors ++ errs }
      | (none, dups', errs) =>
          { st with dups := dups', errors := st.errors ++ errs }
  | .dir nm listable cs =>
      { st with folders := st.folders ++ [mkFolderInfo root pe.1 (calculate_folder_size (.dir nm listable cs))] }
  | .symlink _ _ => st

/-- `DiskAnalyzer.analyze_directory` (lines 147-226): drive `safe_walk`
over the root, process every yielded entry, then synthesise the root's own
folder record when no yielded folder record carries the root path (lines
204-220; the walk yields only proper descendants, so the guard is always
taken).  The generator's errors are appended while the loop consumes it;
the model groups them before the per-entry errors, which preserves their
multiset and relative order. -/
def analyze_directory (fs : FSNode) : ScanState :=
  let w := safe_walk [] fs
  let st := w.1.foldl (processEntry fs.name) ⟨[], [], [], [], w.2⟩
  if st.folders.all (fun fr => fr.path ≠ fs.name) then
    { st with folders := st.folders ++ [mkFolderInfo fs.name [] (calculate_folder_size fs)] }
  else st

/-- Python's string comparison: lexicographic by code point, a proper
prefix ordered first. -/
def charsLe : List Char → List Char → Bool
  | [], _ => true
  | _ :: _, [] => false
  | a :: as, b :: bs =>
      if a.toNat < b.toNat then true
      else if b.toNat < a.toNat then false
      else charsLe as bs

/-- `a <= b` on Python strings. -/
def strLe (a b : String) : Bool := charsLe a.data b.data

/-- The duplicate-group computation of `create_duplicates_sheet` (lines
494-528): keep the groups with more than one member, order them by the
size of their first member in insertion order, descending (`sorted` with
`key=lambda x: x[1][0]['size']`, `reverse=True` — Python's sort is stable,
modelled by the stable `insertionSort`), then sort each group's members by
path (line 528). -/
def finalizeDuplicates (m : DupMap) : List (List Nat × List DupEntry) :=
  let groups := m.filter (fun g => g.2.length > 1)
  let ordered := groups.insertionSort (fun g h =>
    (h.2.headD ⟨"", "", 0⟩).size ≤ (g.2.headD ⟨"", "", 0⟩).size)
  ordered.map (fun g => (g.1, g.2.insertionSort (fun e f => strLe e.path f.path = true)))

/-- The Windows extended-path prefix `\\?\` (written `'\\\\?\\'` in the
source). -/
def extPrefix : List Char := ['\\', '\\', '?', '\\']

/-- The long-path handling of `get_file_info` and `get_file_hash` (lines
37-38 and 57-59): on Windows, a path longer than 260 characters that does
not already start with the extended prefix is replaced by the prefix plus
its `os.path.abspath`.  Paths are byte strings modelled as character
lists; `abspath` is a parameter (the identity on the absolute, already
normalised paths the scan produces). -/
def normalizeStatPath (isWindows : Bool) (abspath : List Char → List Char)
    (p : List Char) : List Char :=
  if isWindows ∧ p.length > 260 ∧ ¬ extPrefix.isPrefixOf p then
    extPrefix ++ abspath p
  else p

/-- The long-path handling of `safe_walk` (lines 131-135): same guard but
with a 200-character threshold. -/
def normalizeWalkPath (isWindows : Bool) (abspath : List Char → List Char)
    (p : List Char) : List Char :=
  if isWindows ∧ p.length > 200 ∧ ¬ extPrefix.isPrefixOf p then
    extPrefix ++ abspath p
  else p

/-- The long-path handling of `calculate_folder_size` (lines 116-117):
threshold 260 but, unlike the other two sites, no check that the path is
already prefixed. -/
def normalizeAggPath (isWindows : Bool) (abspath : List Char → List Char)
    (p : List Char) : List Char :=
  if isWindows ∧ p.length > 260 then extPrefix ++ abspath p else p

/-- The file record the loop of `analyze_directory` produces for one
yielded entry, if any: the entry resolves to a file and its stat
succeeds. -/
def entryToFile (root : String) (pe : List String × FSNode) : Option FileInfo :=
  match resolve pe.2 with
  | .file _ sz content statOk readOk =>
      if statOk then some (mkFileInfo root pe.1 sz content readOk) else none
  | _ => none

/-- The duplicate-index registration one yielded entry performs, if any. -/
def entryToReg (root : String) (pe : List String × FSNode) : Option (List Nat × DupEntry) :=
  match entryToFile root pe with
  | some info =>
      match info.hash with
      | some h => some (h, ⟨info.path, info.nm, info.size_bytes⟩)
      | none => none
  | none => none

/-- The error one yielded entry appends, if any: only a stat failure on a
file entry does. -/
def entryToError (pe : List String × FSNode) : Option ScanError :=
  match resolve pe.2 with
  | .file _ _ _ false _ => some (.readFile pe.1)
  | _ => none

/-- The folder record the loop produces for one yielded entry, if any. -/
def entryToFolder (root : String) (pe : List String × FSNode) : Option FolderInfo :=
  match resolve pe.2 with
  | .dir nm listable cs =>
      some (mkFolderInfo root pe.1 (calculate_folder_size (.dir nm listable cs)))
  | _ => none

/-- The `os.path.getsize` contribution of a yielded entry to the
aggregator's byte total: a file entry (through links) contributes its size
when accessible and nothing when `getsize` fails. -/
def entrySizeContrib (pe : List String × FSNode) : Option Nat :=
  match resolve pe.2 with
  | .file _ sz _ st _ => some (if st then sz else 0)
  | _ => none

/-- Whether a yielded entry is counted among `files` by the re-walk. -/
def isFileEntry (pe : List String × FSNode) : Bool :=
  match resolve pe.2 with
  | .file _ _ _ _ _ => true
  | _ => false

/-- Whether a yielded entry is counted among `dirs` by the re-walk. -/
def isDirEntry (pe : List String × FSNode) : Bool :=
  match resolve pe.2 with
  | .dir _ _ _ => true
  | _ => false

/-- The summed sizes of a directory's accessible immediate file
children. -/
def immediateFileSum : FSNode → Nat
  | .dir _ true cs =>
      (cs.filterMap (fun c =>
        match resolve c with
        | .file _ sz _ st _ => if st then some sz else none
        | _ => none)).sum
  | _ => 0

/-- The size of the first-inserted member of a digest's group in the
duplicate index. -/
def firstInsertedSize (m : DupMap) (d : List Nat) : Nat :=
  match m.find? (fun g => g.1 == d) with
  | some g => (g.2.headD ⟨"", "", 0⟩).size
  | none => 0

/-- The count stored in the extension summary for a key (0 when the key
was never touched). -/
def typeCount (ts : TypeMap) (e : String) : Nat :=
  match lookupType ts e with
  | some (c, _) => c
  | none => 0

/-- The byte total stored in the extension summary for a key. -/
def typeSize (ts : TypeMap) (e : String) : Nat :=
  match lookupType ts e with
  | some (_, s) => s
  | none => 0

/-- A chain of listable ancestor directories around a distinguished
subtree: each level lists some sibling trees before the spine and some
after it.  `nestIn levels n` places `n` at depth `levels.length` below
the root, surrounded by arbitrary siblings at every level, so a property
quantified over `levels` holds for the subtree at any position in any
tree. -/
def nestIn : List (String × List FSNode × List FSNode) → FSNode → FSNode
  | [], n => n
  | (nm, pre, post) :: rest, n => .dir nm true (pre ++ nestIn rest n :: post)

/-- The root-relative path at which `nestIn levels n` places `n`: one
segment per level below the root. -/
def spinePath : List (String × List FSNode × List FSNode) → FSNode → List String
  | [], _ => []
  | _ :: rest, n => (nestIn rest n).name :: spinePath rest n

/-- Pre-order contiguity of one yielded path: everything in the sequence
that strictly extends `p` forms one contiguous block immediately after
`p`, so a directory's descendants are all yielded right after it and
before any of its siblings. -/
def PreorderBlock (l : List (List String)) (p : List String) : Prop :=
  ∃ a d b, l = a ++ p :: (d ++ b) ∧
    (∀ q ∈ d, p <+: q ∧ p ≠ q) ∧
    (∀ q ∈ a, ¬(p <+: q ∧ p ≠ q)) ∧
    (∀ q ∈ b, ¬(p <+: q ∧ p ≠ q))

/-! ## Generic helpers -/

/-- Strong induction on the size of a filesystem node. -/
theorem FSNode.sizeInd {motive : FSNode → Prop}
    (step : ∀ n, (∀ m, sizeOf m < sizeOf n → motive m) → motive n) :
    ∀ n, motive n := by
  have key : ∀ k n, sizeOf n < k → motive n := by
    intro k
    induction k with
    | zero => intro n h; exact absurd h (Nat.not_lt_zero _)
    | succ k ih => intro n h; exact step n fun m hm => ih m (by omega)
  exact fun n => key (sizeOf n + 1) n (Nat.lt_succ_self _)

theorem sizeOf_child_lt {c : FSNode} {nm : String} {b : Bool} {cs : List FSNode}
    (h : c ∈ cs) : sizeOf c < sizeOf (FSNode.dir nm b cs) := by
  have := List.sizeOf_lt_of_mem h
  simp only [FSNode.dir.sizeOf_spec]
  omega

theorem sizeOf_target_lt {nm : String} {t : FSNode} :
    sizeOf t < sizeOf (FSNode.symlink nm t) := by
  simp only [FSNode.symlink.sizeOf_spec]
  omega

/-- In a list whose keys are distinct, searching for a member's key finds
that member. -/
theorem find?_key_of_mem {α β : Type} [BEq β] [LawfulBEq β] (key : α → β)
    {l : List α} (hnd : (l.map key).Nodup) {a : α} (ha : a ∈ l) :
    l.find? (fun x => key x == key a) = some a := by
  induction l with
  | nil => cases ha
  | cons b t ih =>
      rw [List.map_cons, List.nodup_cons] at hnd
      rcases List.mem_cons.mp ha with rfl | hat
      · simp [List.find?]
      · have hne : (key b == key a) = false := by
          rw [beq_eq_false_iff_ne]
          intro he
          exact hnd.1 (he ▸ List.mem_map_of_mem key hat)
        simp [List.find?, hne, ih hnd.2 hat]

/-! ## C2: the 1 MiB partial-hash policy -/

theorem hashedBytes_of_le {c : List Nat} (h : 1024 * 1024 ≤ c.length) :
    hashedBytes c.length c = c.take (1024 * 1024) := by
  unfold hashedBytes
  rcases Nat.lt_or_ge (1024 * 1024) c.length with hlt | hge
  · simp [hlt]
  · have heq : c.length = 1024 * 1024 := le_antisymm hge h
    have hno : ¬ c.length > 1024 * 1024 := by omega
    rw [if_neg hno, ← heq, List.take_length]

theorem take_eq_collapse {N : Nat} {c₁ c₂ : List Nat}
    (ht : c₁.take N = c₂.take N) (h : c₁.length < N) : c₁ = c₂ := by
  have e1 : c₁.take N = c₁ := List.take_of_length_le h.le
  have hc : c₁ = c₂.take N := by rw [← e1, ht]
  have hlen : c₁.length = min N c₂.length := by rw [hc, List.length_take]
  have h2 : c₂.length < N := by
    rcases Nat.lt_or_ge c₂.length N with hh | hh
    · exact hh
    · rw [Nat.min_eq_right] at hlen
      · omega
      · omega
  have e2 : c₂.take N = c₂ := List.take_of_length_le h2.le
  rw [hc, e2]

/-- C2 (amended).  Two files with byte-identical content receive identical
digests.  Two distinct files that agree on their first 1 MiB necessarily
both have size at least 1 MiB, and they always receive identical digests;
in particular a file of size exactly 1 MiB (which is at, not above, the
threshold and is hashed in full) shares its digest with any longer file
extending its content, so "never when either is ≤ 1 MiB" holds only with
"strictly below 1 MiB" in place of "≤ 1 MiB". -/
theorem get_file_hash_prefix_policy :
    (∀ c₁ c₂ : List Nat, c₁.length ≤ 1024 * 1024 → c₂.length ≤ 1024 * 1024 →
      c₁ = c₂ → get_file_hash true c₁.length c₁ = get_file_hash true c₂.length c₂) ∧
    (∀ c₁ c₂ : List Nat, c₁.take (1024 * 1024) = c₂.take (1024 * 1024) → c₁ ≠ c₂ →
      get_file_hash true c₁.length c₁ = get_file_hash true c₂.length c₂ ∧
      1024 * 1024 ≤ c₁.length ∧ 1024 * 1024 ≤ c₂.length) ∧
    (∀ c₁ c₂ : List Nat, c₁.take (1024 * 1024) = c₂.take (1024 * 1024) → c₁ ≠ c₂ →
      c₁.length < 1024 * 1024 → False) := by
  refine ⟨fun c₁ c₂ _ _ he => by rw [he], fun c₁ c₂ ht hne => ?_, ?_⟩
  · have h1 : 1024 * 1024 ≤ c₁.length := by
      by_contra h
      exact hne (take_eq_collapse ht (by omega))
    have h2 : 1024 * 1024 ≤ c₂.length := by
      by_contra h
      exact hne (take_eq_collapse ht.symm (by omega)).symm
    refine ⟨?_, h1, h2⟩
    unfold get_file_hash
    rw [if_pos rfl, if_pos rfl, hashedBytes_of_le h1, hashedBytes_of_le h2, ht]
  · intro c₁ c₂ ht hne hlt
    exact hne (take_eq_collapse ht hlt)

/-- C2 counterexample: a file of exactly 1 MiB and a one-byte-longer file
agreeing on that 1 MiB differ only after their first 1 MiB, one of them
has size ≤ 1 MiB, and they receive identical digests. -/
theorem get_file_hash_prefix_policy_cex :
    ((List.replicate (1024 * 1024) (0 : Nat)).take (1024 * 1024) =
      (List.replicate (1024 * 1024) (0 : Nat) ++ [1]).take (1024 * 1024)) ∧
    (List.replicate (1024 * 1024) (0 : Nat)) ≠ (List.replicate (1024 * 1024) (0 : Nat) ++ [1]) ∧
    (List.replicate (1024 * 1024) (0 : Nat)).length ≤ 1024 * 1024 ∧
    get_file_hash true (List.replicate (1024 * 1024) (0 : Nat)).length
        (List.replicate (1024 * 1024) (0 : Nat)) =
      get_file_hash true (List.replicate (1024 * 1024) (0 : Nat) ++ [1]).length
        (List.replicate (1024 * 1024) (0 : Nat) ++ [1]) := by
  have htake : (List.replicate (1024 * 1024) (0 : Nat) ++ [1]).take (1024 * 1024) =
      List.replicate (1024 * 1024) (0 : Nat) := by
    rw [List.take_append_of_le_length (le_of_eq (List.length_replicate _ _).symm),
      List.take_replicate, Nat.min_self]
  have hne : (List.replicate (1024 * 1024) (0 : Nat)) ≠
      (List.replicate (1024 * 1024) (0 : Nat) ++ [1]) := by
    intro h
    have hl := congrArg List.length h
    rw [List.length_append, List.length_replicate, List.length_cons, List.length_nil] at hl
    omega
  refine ⟨?_, hne, le_of_eq (List.length_replicate _ _), ?_⟩
  · rw [htake, List.take_replicate, Nat.min_self]
  · unfold get_file_hash hashedBytes
    rw [if_pos rfl, if_pos rfl]
    have hl1 : ¬ (List.replicate (1024 * 1024) (0 : Nat)).length > 1024 * 1024 := by
      rw [List.length_replicate]
      omega
    have hl2 : (List.replicate (1024 * 1024) (0 : Nat) ++ [1]).length > 1024 * 1024 := by
      rw [List.length_append, List.length_replicate, List.length_cons, List.length_nil]
      omega
    rw [if_neg hl1, if_pos hl2, htake]

/-- C2 witness: the amended theorem applied to two distinct files sharing
their first 1 MiB. -/
theorem get_file_hash_prefix_policy_witness :
    ((List.replicate (1024 * 1024) (0 : Nat) ++ [5]).take (1024 * 1024) =
      (List.replicate (1024 * 1024) (0 : Nat) ++ [6]).take (1024 * 1024)) ∧
    (List.replicate (1024 * 1024) (0 : Nat) ++ [5]) ≠ (List.replicate (1024 * 1024) (0 : Nat) ++ [6]) ∧
    (get_file_hash true (List.replicate (1024 * 1024) (0 : Nat) ++ [5]).length
        (List.replicate (1024 * 1024) (0 : Nat) ++ [5]) =
      get_file_hash true (List.replicate (1024 * 1024) (0 : Nat) ++ [6]).length
        (List.replicate (1024 * 1024) (0 : Nat) ++ [6]) ∧
      1024 * 1024 ≤ (List.replicate (1024 * 1024) (0 : Nat) ++ [5]).length ∧
      1024 * 1024 ≤ (List.replicate (1024 * 1024) (0 : Nat) ++ [6]).length) := by
  have htake : ∀ x : Nat, (List.replicate (1024 * 1024) (0 : Nat) ++ [x]).take (1024 * 1024) =
      List.replicate (1024 * 1024) (0 : Nat) := by
    intro x
    rw [List.take_append_of_le_length (le_of_eq (List.length_replicate _ _).symm),
      List.take_replicate, Nat.min_self]
  have ht : (List.replicate (1024 * 1024) (0 : Nat) ++ [5]).take (1024 * 1024) =
      (List.replicate (1024 * 1024) (0 : Nat) ++ [6]).take (1024 * 1024) := by
    rw [htake, htake]
  have hne : (List.replicate (1024 * 1024) (0 : Nat) ++ [5]) ≠
      (List.replicate (1024 * 1024) (0 : Nat) ++ [6]) := by
    intro h
    have h2 := List.append_cancel_left h
    simp at h2
  exact ⟨ht, hne, get_file_hash_prefix_policy.2.1 _ _ ht hne⟩

/-! ## C8: long-path handling -/

/-- C8 (amended).  All three normalization sites are total functions (they
cannot raise).  The `get_file_info`/`get_file_hash` site leaves every path
of at most 260 characters, and every already-prefixed path, unchanged, and
rewrites longer unprefixed paths to the prefixed absolute form.  The
`safe_walk` site behaves the same but with a 200-character threshold, so
it also rewrites some paths that are within the 260-character platform
limit.  The `calculate_folder_size` site leaves paths of at most 260
characters unchanged but rewrites every longer path, including paths
already carrying the extended prefix, which therefore come out doubly
prefixed. -/
theorem normalize_path_spec :
    (∀ (a : List Char → List Char) (p : List Char), p.length ≤ 260 →
      normalizeStatPath true a p = p) ∧
    (∀ (a : List Char → List Char) (p : List Char), extPrefix.isPrefixOf p →
      normalizeStatPath true a p = p) ∧
    (∀ (a : List Char → List Char) (p : List Char), p.length > 260 →
      ¬ extPrefix.isPrefixOf p → normalizeStatPath true a p = extPrefix ++ a p) ∧
    (∀ (a : List Char → List Char) (p : List Char), p.length ≤ 200 →
      normalizeWalkPath true a p = p) ∧
    (∀ (a : List Char → List Char) (p : List Char), extPrefix.isPrefixOf p →
      normalizeWalkPath true a p = p) ∧
    (∀ (a : List Char → List Char) (p : List Char), p.length > 200 →
      ¬ extPrefix.isPrefixOf p → normalizeWalkPath true a p = extPrefix ++ a p) ∧
    (∀ (a : List Char → List Char) (p : List Char), p.length ≤ 260 →
      normalizeAggPath true a p = p) ∧
    (∀ (a : List Char → List Char) (p : List Char), p.length > 260 →
      normalizeAggPath true a p = extPrefix ++ a p) := by
  refine ⟨?_, ?_, ?_, ?_, ?_, ?_, ?_, ?_⟩
  · intro a p h
    unfold normalizeStatPath
    rw [if_neg]
    rintro ⟨-, h2, -⟩
    omega
  · intro a p h
    unfold normalizeStatPath
    rw [if_neg]
    rintro ⟨-, -, h3⟩
    exact h3 h
  · intro a p h1 h2
    unfold normalizeStatPath
    rw [if_pos ⟨rfl, h1, h2⟩]
  · intro a p h
    unfold normalizeWalkPath
    rw [if_neg]
    rintro ⟨-, h2, -⟩
    omega
  · intro a p h
    unfold normalizeWalkPath
    rw [if_neg]
    rintro ⟨-, -, h3⟩
    exact h3 h
  · intro a p h1 h2
    unfold normalizeWalkPath
    rw [if_pos ⟨rfl, h1, h2⟩]
  · intro a p h
    unfold normalizeAggPath
    rw [if_neg]
    rintro ⟨-, h2⟩
    omega
  · intro a p h
    unfold normalizeAggPath
    rw [if_pos ⟨rfl, h⟩]

/-- C8 counterexample: a long path that already carries the extended
prefix is rewritten by the `calculate_folder_size` site and comes out
doubly prefixed, refuting "only paths ... that do not already carry the
extended-path prefix are rewritten" and "never doubly prefixed". -/
theorem normalize_path_cex :
    extPrefix.isPrefixOf (extPrefix ++ List.replicate 260 'a') = true ∧
    normalizeAggPath true id (extPrefix ++ List.replicate 260 'a') =
      extPrefix ++ extPrefix ++ List.replicate 260 'a' ∧
    normalizeAggPath true id (extPrefix ++ List.replicate 260 'a') ≠
      extPrefix ++ List.replicate 260 'a' := by
  have hx : extPrefix.length = 4 := rfl
  have hlen : (extPrefix ++ List.replicate 260 'a').length > 260 := by
    rw [List.length_append, List.length_replicate]
    omega
  have heq : normalizeAggPath true id (extPrefix ++ List.replicate 260 'a') =
      extPrefix ++ extPrefix ++ List.replicate 260 'a' := by
    unfold normalizeAggPath
    rw [if_pos ⟨rfl, hlen⟩, List.append_assoc]
    rfl
  refine ⟨List.isPrefixOf_iff_prefix.mpr (List.prefix_append _ _), heq, ?_⟩
  rw [heq]
  intro h
  have hl := congrArg List.length h
  rw [List.length_append, List.length_append, List.length_append, List.length_replicate] at hl
  omega

/-- C8 witness: the amended theorem applied at short and already-prefixed
concrete paths of each site. -/
theorem normalize_path_spec_witness :
    (['a'] : List Char).length ≤ 260 ∧ normalizeStatPath true id ['a'] = ['a'] ∧
    (['b'] : List Char).length ≤ 200 ∧ normalizeWalkPath true id ['b'] = ['b'] ∧
    (['c'] : List Char).length ≤ 260 ∧ normalizeAggPath true id ['c'] = ['c'] ∧
    extPrefix.isPrefixOf (extPrefix ++ ['d']) = true ∧
    normalizeStatPath true id (extPrefix ++ ['d']) = extPrefix ++ ['d'] :=
  ⟨by decide, normalize_path_spec.1 id ['a'] (by decide),
   by decide, normalize_path_spec.2.2.2.1 id ['b'] (by decide),
   by decide, normalize_path_spec.2.2.2.2.2.2.1 id ['c'] (by decide),
   by decide, normalize_path_spec.2.1 id (extPrefix ++ ['d']) (by decide)⟩

/-! ## C3: duplicate-index finalization -/

theorem insertDup_pred {P : List Nat → DupEntry → Prop} :
    ∀ {m : DupMap} {h : List Nat} {e : DupEntry},
      (∀ g ∈ m, ∀ x ∈ g.2, P g.1 x) → P h e →
      ∀ g ∈ insertDup m h e, ∀ x ∈ g.2, P g.1 x := by
  intro m
  induction m with
  | nil =>
      intro h e _ he g hg x hx
      simp only [insertDup, List.mem_singleton] at hg
      subst hg
      simp only [List.mem_singleton] at hx
      subst hx
      exact he
  | cons b rest ih =>
      intro h e hm he g hg x hx
      obtain ⟨h', es⟩ := b
      simp only [insertDup] at hg
      by_cases hk : h' = h
      · rw [if_pos hk] at hg
        rcases List.mem_cons.mp hg with rfl | hg'
        · rcases List.mem_append.mp hx with hx' | hx'
          · exact hm _ (List.mem_cons_self _ _) x hx'
          · simp only [List.mem_singleton] at hx'
            subst hx'
            simpa [hk] using he
        · exact hm g (List.mem_cons_of_mem _ hg') x hx
      · rw [if_neg hk] at hg
        rcases List.mem_cons.mp hg with rfl | hg'
        · exact hm _ (List.mem_cons_self _ _) x hx
        · exact ih (fun g' hg'' => hm g' (List.mem_cons_of_mem _ hg'')) he g hg' x hx

theorem foldl_insertDup_pred {P : List Nat → DupEntry → Prop} :
    ∀ (ins : List (List Nat × DupEntry)) (m : DupMap),
      (∀ g ∈ m, ∀ x ∈ g.2, P g.1 x) → (∀ i ∈ ins, P i.1 i.2) →
      ∀ g ∈ ins.foldl (fun m i => insertDup m i.1 i.2) m, ∀ x ∈ g.2, P g.1 x := by
  intro ins
  induction ins with
  | nil => intro m hm _ g hg x hx; exact hm g hg x hx
  | cons i rest ih =>
      intro m hm hi g hg x hx
      exact ih (insertDup m i.1 i.2)
        (insertDup_pred hm (hi i (List.mem_cons_self _ _)))
        (fun j hj => hi j (List.mem_cons_of_mem _ hj)) g hg x hx

/-- Every member of every group of the built index was inserted under the
group's digest. -/
theorem buildDupMap_mem (ins : List (List Nat × DupEntry)) :
    ∀ g ∈ buildDupMap ins, ∀ x ∈ g.2, (g.1, x) ∈ ins := by
  have h := foldl_insertDup_pred (P := fun d x => (d, x) ∈ ins) ins []
    (by intro g hg; cases hg) (by intro i _; assumption)
  exact h

theorem insertDup_keys (m : DupMap) (h : List Nat) (e : DupEntry) :
    (insertDup m h e).map Prod.fst =
      if h ∈ m.map Prod.fst then m.map Prod.fst else m.map Prod.fst ++ [h] := by
  induction m with
  | nil => simp [insertDup]
  | cons b rest ih =>
      obtain ⟨h', es⟩ := b
      simp only [insertDup, List.map_cons]
      by_cases hk : h' = h
      · subst hk
        rw [if_pos rfl]
        simp
      · rw [if_neg hk, List.map_cons, ih]
        by_cases hm : h ∈ rest.map Prod.fst
        · rw [if_pos hm, if_pos (List.mem_cons_of_mem _ hm)]
        · rw [if_neg hm, if_neg ?_, List.cons_append]
          intro hc
          rcases List.mem_cons.mp hc with hc' | hc'
          · exact hk hc'.symm
          · exact hm hc'

theorem insertDup_keys_nodup {m : DupMap} (hnd : (m.map Prod.fst).Nodup)
    (h : List Nat) (e : DupEntry) : ((insertDup m h e).map Prod.fst).Nodup := by
  rw [insertDup_keys]
  by_cases hm : h ∈ m.map Prod.fst
  · rwa [if_pos hm]
  · rw [if_neg hm]
    exact hnd.append (List.nodup_singleton _) (List.disjoint_singleton.mpr hm)

theorem buildDupMap_keys_nodup (ins : List (List Nat × DupEntry)) :
    ((buildDupMap ins).map Prod.fst).Nodup := by
  have key : ∀ (l : List (List Nat × DupEntry)) (m : DupMap), (m.map Prod.fst).Nodup →
      ((l.foldl (fun m i => insertDup m i.1 i.2) m).map Prod.fst).Nodup := by
    intro l
    induction l with
    | nil => intro m hm; exact hm
    | cons i rest ih => intro m hm; exact ih _ (insertDup_keys_nodup hm i.1 i.2)
  exact key ins [] (by simp)

theorem charsLe_total : ∀ as bs : List Char, charsLe as bs = true ∨ charsLe bs as = true := by
  intro as
  induction as with
  | nil => intro bs; left; rfl
  | cons a as ih =>
      intro bs
      cases bs with
      | nil => right; rfl
      | cons b bs =>
          rcases Nat.lt_trichotomy a.toNat b.toNat with h | h | h
          · left
            simp [charsLe, h]
          · rcases ih bs with h' | h'
            · left
              simp [charsLe, h, h']
            · right
              simp [charsLe, h, h']
          · right
            simp [charsLe, h]

theorem charsLe_trans : ∀ as bs cs : List Char,
    charsLe as bs = true → charsLe bs cs = true → charsLe as cs = true := by
  intro as
  induction as with
  | nil => intro bs cs _ _; rfl
  | cons a as ih =>
      intro bs cs h1 h2
      cases bs with
      | nil => simp [charsLe] at h1
      | cons b bs =>
          cases cs with
          | nil => simp [charsLe] at h2
          | cons c cs =>
              simp only [charsLe] at h1 h2 ⊢
              by_cases hab : a.toNat < b.toNat
              · by_cases hbc : b.toNat < c.toNat
                · simp [show a.toNat < c.toNat by omega]
                · rw [if_pos hab] at h1
                  rw [if_neg hbc] at h2
                  by_cases hcb : c.toNat < b.toNat
                  · simp [hcb] at h2
                  · simp [show a.toNat < c.toNat by omega]
              · rw [if_neg hab] at h1
                by_cases hba : b.toNat < a.toNat
                · simp [hba] at h1
                · rw [if_neg hba] at h1
                  by_cases hbc : b.toNat < c.toNat
                  · simp [show a.toNat < c.toNat by omega]
                  · rw [if_neg hbc] at h2
                    by_cases hcb : c.toNat < b.toNat
                    · simp [hcb] at h2
                    · rw [if_neg hcb] at h2
                      rw [if_neg (show ¬ a.toNat < c.toNat by omega),
                        if_neg (show ¬ c.toNat < a.toNat by omega)]
                      exact ih bs cs h1 h2

/-- C3 (amended).  After finalization every group has at least two
members, each member was inserted under the group's digest, members are
sorted by path, and the groups are ordered descending by the size of
their **first-inserted** member (the head of the group before the
per-group path sort), not by the size of their smallest-path member: the
ordering key `x[1][0]['size']` is read from the insertion-ordered list,
and the path sort happens afterwards. -/
theorem finalize_duplicates_spec (ins : List (List Nat × DupEntry)) :
    (∀ g ∈ finalizeDuplicates (buildDupMap ins), 2 ≤ g.2.length) ∧
    (∀ g ∈ finalizeDuplicates (buildDupMap ins),
      g.2.Pairwise (fun e f => strLe e.path f.path = true)) ∧
    (∀ g ∈ finalizeDuplicates (buildDupMap ins), ∀ e ∈ g.2, (g.1, e) ∈ ins) ∧
    (finalizeDuplicates (buildDupMap ins)).Pairwise (fun g h =>
      firstInsertedSize (buildDupMap ins) h.1 ≤ firstInsertedSize (buildDupMap ins) g.1) := by
  set m := buildDupMap ins with hm
  set groups := m.filter (fun g => g.2.length > 1) with hgroups
  set r1 : (List Nat × List DupEntry) → (List Nat × List DupEntry) → Prop :=
    fun g h => (h.2.headD ⟨"", "", 0⟩).size ≤ (g.2.headD ⟨"", "", 0⟩).size with hr1
  haveI : IsTotal (List Nat × List DupEntry) r1 := ⟨fun a b => le_total _ _⟩
  haveI : IsTrans (List Nat × List DupEntry) r1 :=
    ⟨fun a b c hab hbc => le_trans hbc hab⟩
  haveI : IsTotal DupEntry (fun e f => strLe e.path f.path = true) :=
    ⟨fun a b => charsLe_total _ _⟩
  haveI : IsTrans DupEntry (fun e f => strLe e.path f.path = true) :=
    ⟨fun a b c hab hbc => charsLe_trans _ _ _ hab hbc⟩
  have hout : finalizeDuplicates m =
      (groups.insertionSort r1).map
        (fun g => (g.1, g.2.insertionSort (fun e f => strLe e.path f.path = true))) := rfl
  have hmem_ordered : ∀ g ∈ groups.insertionSort r1, g ∈ m := by
    intro g hg
    have hg' : g ∈ groups := (List.perm_insertionSort r1 groups).mem_iff.mp hg
    exact List.mem_of_mem_filter hg'
  refine ⟨?_, ?_, ?_, ?_⟩
  · intro g hg
    rw [hout] at hg
    obtain ⟨g0, hg0, rfl⟩ := List.mem_map.mp hg
    have hlen : (g0.2.insertionSort (fun e f => strLe e.path f.path = true)).length = g0.2.length :=
      (List.perm_insertionSort _ _).length_eq
    have hg0' : g0 ∈ groups := (List.perm_insertionSort r1 groups).mem_iff.mp hg0
    have := List.of_mem_filter hg0'
    simp only [decide_eq_true_eq] at this
    simpa [hlen] using this
  · intro g hg
    rw [hout] at hg
    obtain ⟨g0, _, rfl⟩ := List.mem_map.mp hg
    exact List.sorted_insertionSort _ _
  · intro g hg e he
    rw [hout] at hg
    obtain ⟨g0, hg0, rfl⟩ := List.mem_map.mp hg
    have he0 : e ∈ g0.2 := (List.perm_insertionSort _ g0.2).mem_iff.mp he
    exact buildDupMap_mem ins g0 (hmem_ordered g0 hg0) e he0
  · rw [hout, List.pairwise_map]
    have hsorted : (groups.insertionSort r1).Pairwise r1 :=
      List.sorted_insertionSort r1 groups
    refine hsorted.imp_of_mem ?_
    intro a b ha hb hab
    have hkey : ∀ g ∈ groups.insertionSort r1,
        firstInsertedSize m g.1 = (g.2.headD ⟨"", "", 0⟩).size := by
      intro g hg
      have hgm : g ∈ m := hmem_ordered g hg
      have := find?_key_of_mem Prod.fst (buildDupMap_keys_nodup ins) hgm
      unfold firstInsertedSize
      rw [hm] at *
      rw [this]
    simpa only [hkey a ha, hkey b hb] using hab

/-- C3 counterexample: a concrete insertion sequence on which the
finalized groups are **not** ordered by the size of their first
(smallest-path) member descending — the first group's smallest-path
member has size 50, the second group's has size 100. -/
theorem finalize_duplicates_cex :
    finalizeDuplicates (buildDupMap
        [([1], ⟨"z", "z", 10⟩), ([2], ⟨"m", "m", 50⟩),
         ([2], ⟨"n", "n", 50⟩), ([1], ⟨"a", "a", 100⟩)]) =
      [([2], [⟨"m", "m", 50⟩, ⟨"n", "n", 50⟩]),
       ([1], [⟨"a", "a", 100⟩, ⟨"z", "z", 10⟩])] ∧
    ¬ (finalizeDuplicates (buildDupMap
        [([1], ⟨"z", "z", 10⟩), ([2], ⟨"m", "m", 50⟩),
         ([2], ⟨"n", "n", 50⟩), ([1], ⟨"a", "a", 100⟩)])).Pairwise
      (fun g h => (h.2.headD ⟨"", "", 0⟩).size ≤ (g.2.headD ⟨"", "", 0⟩).size) := by
  constructor
  · decide
  · decide

/-- C3 witness: the amended theorem applied to the concrete insertion
sequence above. -/
theorem finalize_duplicates_spec_witness :
    (([2], [(⟨"m", "m", 50⟩ : DupEntry), ⟨"n", "n", 50⟩]) ∈
      finalizeDuplicates (buildDupMap
        [([1], ⟨"z", "z", 10⟩), ([2], ⟨"m", "m", 50⟩),
         ([2], ⟨"n", "n", 50⟩), ([1], ⟨"a", "a", 100⟩)])) ∧
    2 ≤ ([(⟨"m", "m", 50⟩ : DupEntry), ⟨"n", "n", 50⟩] :
      List DupEntry).length ∧
    (([2] : List Nat), (⟨"n", "n", 50⟩ : DupEntry)) ∈
      [(([1] : List Nat), (⟨"z", "z", 10⟩ : DupEntry)), ([2], ⟨"m", "m", 50⟩),
       ([2], ⟨"n", "n", 50⟩), ([1], ⟨"a", "a", 100⟩)] := by
  refine ⟨by decide, ?_, ?_⟩
  · exact (finalize_duplicates_spec
      [([1], ⟨"z", "z", 10⟩), ([2], ⟨"m", "m", 50⟩),
       ([2], ⟨"n", "n", 50⟩), ([1], ⟨"a", "a", 100⟩)]).1
      (([2], [⟨"m", "m", 50⟩, ⟨"n", "n", 50⟩])) (by decide)
  · exact (finalize_duplicates_spec
      [([1], ⟨"z", "z", 10⟩), ([2], ⟨"m", "m", 50⟩),
       ([2], ⟨"n", "n", 50⟩), ([1], ⟨"a", "a", 100⟩)]).2.2.1
      (([2], [⟨"m", "m", 50⟩, ⟨"n", "n", 50⟩])) (by decide)
      ⟨"n", "n", 50⟩ (by decide)

/-! ## The driving loop as a function of the yielded entries -/

theorem processEntry_eq (root : String) (st : ScanState) (pe : List String × FSNode) :
    processEntry root st pe =
      { files := st.files ++ (entryToFile root pe).toList
        folders := st.folders ++ (entryToFolder root pe).toList
        types := match entryToFile root pe with
          | some fi => bumpType st.types fi.extension fi.size_bytes
          | none => st.types
        dups := match entryToReg root pe with
          | some i => insertDup st.dups i.1 i.2
          | none => st.dups
        errors := st.errors ++ (entryToError pe).toList } := by
  obtain ⟨f, fo, ty, du, er⟩ := st
  cases h : resolve pe.2 with
  | file nm sz content statOk readOk =>
      cases statOk with
      | true =>
          simp [processEntry, get_file_info, entryToFile, entryToReg, entryToError,
            entryToFolder, h]
          cases hh : (mkFileInfo root pe.1 sz content readOk).hash <;> simp [hh]
      | false =>
          simp [processEntry, get_file_info, entryToFile, entryToReg, entryToError,
            entryToFolder, h]
  | dir nm listable cs =>
      simp [processEntry, entryToFile, entryToReg, entryToError, entryToFolder, h]
  | symlink nm t =>
      simp [processEntry, entryToFile, entryToReg, entryToError, entryToFolder, h]

theorem foldl_processEntry_files (root : String) :
    ∀ (es : List (List String × FSNode)) (st : ScanState),
      (es.foldl (processEntry root) st).files = st.files ++ es.filterMap (entryToFile root) := by
  intro es
  induction es with
  | nil => intro st; simp
  | cons pe rest ih =>
      intro st
      rw [List.foldl_cons, processEntry_eq, ih]
      cases h : entryToFile root pe <;> simp [List.filterMap_cons, h]

theorem foldl_processEntry_folders (root : String) :
    ∀ (es : List (List String × FSNode)) (st : ScanState),
      (es.foldl (processEntry root) st).folders = st.folders ++ es.filterMap (entryToFolder root) := by
  intro es
  induction es with
  | nil => intro st; simp
  | cons pe rest ih =>
      intro st
      rw [List.foldl_cons, processEntry_eq, ih]
      cases h : entryToFolder root pe <;> simp [List.filterMap_cons, h]

theorem foldl_processEntry_errors (root : String) :
    ∀ (es : List (List String × FSNode)) (st : ScanState),
      (es.foldl (processEntry root) st).errors = st.errors ++ es.filterMap entryToError := by
  intro es
  induction es with
  | nil => intro st; simp
  | cons pe rest ih =>
      intro st
      rw [List.foldl_cons, processEntry_eq, ih]
      cases h : entryToError pe <;> simp [List.filterMap_cons, h]

theorem foldl_processEntry_dups (root : String) :
    ∀ (es : List (List String × FSNode)) (st : ScanState),
      (es.foldl (processEntry root) st).dups =
        (es.filterMap (entryToReg root)).foldl (fun m i => insertDup m i.1 i.2) st.dups := by
  intro es
  induction es with
  | nil => intro st; simp
  | cons pe rest ih =>
      intro st
      rw [List.foldl_cons, processEntry_eq, ih]
      cases h : entryToReg root pe <;> simp [List.filterMap_cons, h]

theorem foldl_processEntry_types (root : String) :
    ∀ (es : List (List String × FSNode)) (st : ScanState),
      (es.foldl (processEntry root) st).types =
        (es.filterMap (entryToFile root)).foldl
          (fun ts fi => bumpType ts fi.extension fi.size_bytes) st.types := by
  intro es
  induction es with
  | nil => intro st; simp
  | cons pe rest ih =>
      intro st
      rw [List.foldl_cons, processEntry_eq, ih]
      cases h : entryToFile root pe <;> simp [List.filterMap_cons, h]

theorem analyze_directory_files (fs : FSNode) :
    (analyze_directory fs).files = (safe_walk [] fs).1.filterMap (entryToFile fs.name) := by
  unfold analyze_directory
  dsimp only
  split <;> simp [foldl_processEntry_files]

theorem analyze_directory_errors (fs : FSNode) :
    (analyze_directory fs).errors =
      (safe_walk [] fs).2 ++ (safe_walk [] fs).1.filterMap entryToError := by
  unfold analyze_directory
  dsimp only
  split <;> simp [foldl_processEntry_errors]

theorem analyze_directory_dups (fs : FSNode) :
    (analyze_directory fs).dups =
      buildDupMap ((safe_walk [] fs).1.filterMap (entryToReg fs.name)) := by
  unfold analyze_directory buildDupMap
  dsimp only
  split <;> simp [foldl_processEntry_dups]

theorem analyze_directory_types (fs : FSNode) :
    (analyze_directory fs).types =
      ((safe_walk [] fs).1.filterMap (entryToFile fs.name)).foldl
        (fun ts fi => bumpType ts fi.extension fi.size_bytes) [] := by
  unfold analyze_directory
  dsimp only
  split <;> simp [foldl_processEntry_types]

/-! ## Geometry of the yielded paths -/

theorem walkItems_entry_extends
    (cs : List FSNode) (hcs : ∀ c ∈ cs, ∀ (pfx' : List String) pe',
      pe' ∈ (safe_walk pfx' c).1 → ∃ s t, pe'.1 = pfx' ++ s :: t) :
    ∀ (pfx : List String) pe, pe ∈ (walkItems pfx cs).1 → ∃ s t, pe.1 = pfx ++ s :: t := by
  induction cs with
  | nil => intro pfx pe h; cases h
  | cons c rest ih =>
      intro pfx pe h
      simp only [walkItems, List.mem_cons, List.mem_append] at h
      rcases h with rfl | h | h
      · exact ⟨c.name, [], rfl⟩
      · by_cases hd : c.isDirNoFollow
        · rw [if_pos hd] at h
          obtain ⟨s, t, hst⟩ := hcs c (List.mem_cons_self _ _) (pfx ++ [c.name]) pe h
          exact ⟨c.name, s :: t, by rw [hst, List.append_assoc]; rfl⟩
        · rw [if_neg hd] at h
          cases h
      · exact ih (fun c' hc' => hcs c' (List.mem_cons_of_mem _ hc')) pfx pe h

/-- Every yielded entry's path strictly extends the prefix the walk was
started with. -/
theorem walk_entry_extends :
    ∀ (n : FSNode) (pfx : List String) pe, pe ∈ (safe_walk pfx n).1 →
      ∃ s t, pe.1 = pfx ++ s :: t := by
  refine FSNode.sizeInd (motive := fun n => ∀ (pfx : List String) pe,
    pe ∈ (safe_walk pfx n).1 → ∃ s t, pe.1 = pfx ++ s :: t) ?_
  intro n ih pfx pe h
  match n with
  | .file nm sz content st rd => cases h
  | .symlink nm t =>
      exact ih t sizeOf_target_lt pfx pe (by simpa [safe_walk] using h)
  | .dir nm false cs => cases h
  | .dir nm true cs =>
      refine walkItems_entry_extends cs ?_ pfx pe (by simpa [safe_walk] using h)
      intro c hc pfx' pe' h'
      exact ih c (sizeOf_child_lt hc) pfx' pe' h'

theorem pathStr_length_le :
    ∀ (segs : List String) (root : String), root.length ≤ (pathStr root segs).length := by
  intro segs
  induction segs with
  | nil => intro root; exact le_refl _
  | cons s t ih =>
      intro root
      have h1 : (pathStr root (s :: t)) = pathStr (root ++ "/" ++ s) t := rfl
      have h2 := ih (root ++ "/" ++ s)
      rw [h1]
      rw [String.length_append, String.length_append] at h2
      omega

theorem pathStr_length_lt (root : String) (s : String) (t : List String) :
    root.length < (pathStr root (s :: t)).length := by
  have h1 : (pathStr root (s :: t)) = pathStr (root ++ "/" ++ s) t := rfl
  have h2 := pathStr_length_le t (root ++ "/" ++ s)
  rw [h1]
  rw [String.length_append, String.length_append] at h2
  have h3 : ("/" : String).length = 1 := rfl
  omega

theorem entryToFolder_path {root : String} {pe : List String × FSNode} {fr : FolderInfo}
    (h : entryToFolder root pe = some fr) : fr.path = pathStr root pe.1 := by
  unfold entryToFolder at h
  cases hr : resolve pe.2 with
  | file nm sz content st rd => rw [hr] at h; cases h
  | symlink nm t => rw [hr] at h; cases h
  | dir nm listable cs =>
      rw [hr] at h
      simp only [Option.some.injEq] at h
      rw [← h]
      rfl

/-- The root's own record is always synthesised: no walked entry can carry
the root's path string, because every yielded path has at least one
segment and segments only lengthen the rendering. -/
theorem analyze_directory_folders (fs : FSNode) :
    (analyze_directory fs).folders =
      (safe_walk [] fs).1.filterMap (entryToFolder fs.name) ++
        [mkFolderInfo fs.name [] (calculate_folder_size fs)] := by
  have hcond : ∀ fr ∈ ((safe_walk [] fs).1.foldl (processEntry fs.name)
      ⟨[], [], [], [], (safe_walk [] fs).2⟩ : ScanState).folders, fr.path ≠ fs.name := by
    intro fr hfr
    rw [foldl_processEntry_folders] at hfr
    simp only [List.nil_append] at hfr
    obtain ⟨pe, hpe, hsome⟩ := List.mem_filterMap.mp hfr
    obtain ⟨s, t, hst⟩ := walk_entry_extends fs [] pe hpe
    have hpath : fr.path = pathStr fs.name pe.1 := entryToFolder_path hsome
    rw [hst] at hpath
    simp only [List.nil_append] at hpath
    intro hcontra
    have := pathStr_length_lt fs.name s t
    rw [← hpath, hcontra] at this
    simp at this
  unfold analyze_directory
  dsimp only
  rw [if_pos (by
    rw [List.all_eq_true]
    intro fr hfr
    simpa using hcond fr hfr)]
  simp [foldl_processEntry_folders]

/-! ## C7: the root's folder record -/

/-- C7.  Every scan ends with the root's own folder record synthesised
from a fresh aggregation (the walk yields only proper descendants, so the
root is never recorded by the loop), and scanning an empty root yields no
file records and exactly one folder record, the root's, with zero size,
zero files and zero subfolders at depth 0. -/
theorem root_folder_record :
    (∀ fs : FSNode,
      mkFolderInfo fs.name [] (calculate_folder_size fs) ∈ (analyze_directory fs).folders ∧
      (mkFolderInfo fs.name [] (calculate_folder_size fs)).path = fs.name ∧
      (mkFolderInfo fs.name [] (calculate_folder_size fs)).depth = 0) ∧
    (∀ nm : String,
      (analyze_directory (.dir nm true [])).files = [] ∧
      (analyze_directory (.dir nm true [])).folders =
        [{ path := nm, nm := nm, size_bytes := 0, file_count := 0, subfolder_count := 0,
           depth := 0, total_items := 0 }]) := by
  constructor
  · intro fs
    refine ⟨?_, rfl, rfl⟩
    rw [analyze_directory_folders]
    exact List.mem_append_right _ (List.mem_singleton.mpr rfl)
  · intro nm
    constructor
    · rw [analyze_directory_files]
      rfl
    · rw [analyze_directory_folders]
      simp [safe_walk, walkItems, calculate_folder_size, walkLevel, mkFolderInfo,
        pathStr, FSNode.name]

/-! ## C4: the 100 MiB ceiling -/

theorem mkFileInfo_hash (root : String) (segs : List String) (sz : Nat)
    (content : List Nat) (rd : Bool) :
    (mkFileInfo root segs sz content rd).hash =
      if sz < 100 * 1024 * 1024 then get_file_hash rd sz content else none := rfl

/-- C4.  A file at or above 100 MiB gets a record whose digest is absent,
every registered duplicate-index member is below 100 MiB (so such a file
belongs to no group), and every yielded accessible file — of any size —
still receives a record carrying its stat size. -/
theorem size_ceiling_excludes_from_dedup (fs : FSNode) :
    (∀ fi ∈ (analyze_directory fs).files,
      100 * 1024 * 1024 ≤ fi.size_bytes → fi.hash = none) ∧
    (∀ g ∈ (analyze_directory fs).dups, ∀ e ∈ g.2, e.size < 100 * 1024 * 1024) ∧
    (∀ pe ∈ (safe_walk [] fs).1, ∀ nm sz content rd,
      resolve pe.2 = .file nm sz content true rd →
      mkFileInfo fs.name pe.1 sz content rd ∈ (analyze_directory fs).files ∧
      (mkFileInfo fs.name pe.1 sz content rd).size_bytes = sz ∧
      (mkFileInfo fs.name pe.1 sz content rd).path = pathStr fs.name pe.1) := by
  refine ⟨?_, ?_, ?_⟩
  · intro fi hfi hsz
    rw [analyze_directory_files] at hfi
    obtain ⟨pe, hpe, hsome⟩ := List.mem_filterMap.mp hfi
    unfold entryToFile at hsome
    cases hr : resolve pe.2 with
    | dir nm listable cs => rw [hr] at hsome; cases hsome
    | symlink nm t => rw [hr] at hsome; cases hsome
    | file nm sz content st rd =>
        rw [hr] at hsome
        cases st with
        | false => simp at hsome
        | true =>
            simp only [if_pos, Option.some.injEq] at hsome
            rw [← hsome] at hsz ⊢
            rw [mkFileInfo_hash, if_neg]
            have : (mkFileInfo fs.name pe.1 sz content rd).size_bytes = sz := rfl
            rw [this] at hsz
            omega
  · intro g hg e he
    rw [analyze_directory_dups] at hg
    have hmem := buildDupMap_mem _ g hg e he
    obtain ⟨pe, hpe, hsome⟩ := List.mem_filterMap.mp hmem
    unfold entryToReg at hsome
    cases hf : entryToFile fs.name pe with
    | none => rw [hf] at hsome; cases hsome
    | some info =>
        rw [hf] at hsome
        dsimp only at hsome
        cases hh : info.hash with
        | none => rw [hh] at hsome; cases hsome
        | some d =>
            rw [hh] at hsome
            simp only [Option.some.injEq, Prod.mk.injEq] at hsome
            have hesize : e.size = info.size_bytes := by
              rw [← hsome.2]
            unfold entryToFile at hf
            cases hr : resolve pe.2 with
            | dir nm listable cs => rw [hr] at hf; cases hf
            | symlink nm t => rw [hr] at hf; cases hf
            | file nm sz content st rd =>
                rw [hr] at hf
                cases st with
                | false => simp at hf
                | true =>
                    simp only [if_pos, Option.some.injEq] at hf
                    rw [← hf] at hh
                    rw [mkFileInfo_hash] at hh
                    by_cases hlt : sz < 100 * 1024 * 1024
                    · have hs : info.size_bytes = sz := by
                        rw [← hf]
                        exact rfl
                      rw [hesize, hs]
                      exact hlt
                    · rw [if_neg hlt] at hh
                      cases hh
  · intro pe hpe nm sz content rd hr
    refine ⟨?_, rfl, rfl⟩
    rw [analyze_directory_files]
    refine List.mem_filterMap.mpr ⟨pe, hpe, ?_⟩
    unfold entryToFile
    rw [hr]
    simp

/-- C4 witness: a 200 MiB inaccessible-to-hashing-by-policy file in a
concrete scan. -/
theorem size_ceiling_excludes_from_dedup_witness :
    ((["big.bin"], FSNode.file "big.bin" (200 * 1024 * 1024) [] true true) ∈
      (safe_walk [] (.dir "r" true [.file "big.bin" (200 * 1024 * 1024) [] true true])).1) ∧
    (mkFileInfo "r" ["big.bin"] (200 * 1024 * 1024) [] true ∈
      (analyze_directory (.dir "r" true [.file "big.bin" (200 * 1024 * 1024) [] true true])).files ∧
      (mkFileInfo "r" ["big.bin"] (200 * 1024 * 1024) [] true).size_bytes = 200 * 1024 * 1024 ∧
      (mkFileInfo "r" ["big.bin"] (200 * 1024 * 1024) [] true).path = pathStr "r" ["big.bin"]) ∧
    (mkFileInfo "r" ["big.bin"] (200 * 1024 * 1024) [] true).hash = none := by
  have hpe : ((["big.bin"], FSNode.file "big.bin" (200 * 1024 * 1024) [] true true) ∈
      (safe_walk [] (.dir "r" true [.file "big.bin" (200 * 1024 * 1024) [] true true])).1) := by
    simp [safe_walk, walkItems, FSNode.isDirNoFollow, FSNode.name]
  refine ⟨hpe, ?_, ?_⟩
  · exact (size_ceiling_excludes_from_dedup
      (.dir "r" true [.file "big.bin" (200 * 1024 * 1024) [] true true])).2.2
      _ hpe "big.bin" (200 * 1024 * 1024) [] true rfl
  · exact (size_ceiling_excludes_from_dedup
      (.dir "r" true [.file "big.bin" (200 * 1024 * 1024) [] true true])).1
      _ ((size_ceiling_excludes_from_dedup
        (.dir "r" true [.file "big.bin" (200 * 1024 * 1024) [] true true])).2.2
        _ hpe "big.bin" (200 * 1024 * 1024) [] true rfl).1 (by norm_num [mkFileInfo])

/-! ## C6: hash-unavailable files -/

/-- C6.  When a file's content cannot be read, `get_file_hash` returns the
hash-unavailable result instead of propagating, and `get_file_info` still
returns a record — with no digest — while leaving the duplicate index and
the error sink untouched; in a full scan the record still joins the file
collection. -/
theorem hash_unavailable_excluded_from_dedup_only :
    (∀ sz content, get_file_hash false sz content = none) ∧
    (∀ root segs sz content dups,
      get_file_info root segs sz content true false dups =
        (some (mkFileInfo root segs sz content false), dups, []) ∧
      (mkFileInfo root segs sz content false).hash = none) ∧
    (∀ fs : FSNode, ∀ pe ∈ (safe_walk [] fs).1, ∀ nm sz content,
      resolve pe.2 = .file nm sz content true false →
      mkFileInfo fs.name pe.1 sz content false ∈ (analyze_directory fs).files) := by
  have hnone : ∀ (root : String) (segs : List String) sz content,
      (mkFileInfo root segs sz content false).hash = none := by
    intro root segs sz content
    rw [mkFileInfo_hash]
    unfold get_file_hash
    simp
  refine ⟨fun sz content => rfl, ?_, ?_⟩
  · intro root segs sz content dups
    refine ⟨?_, hnone root segs sz content⟩
    unfold get_file_info
    rw [if_pos rfl]
    dsimp only
    rw [hnone root segs sz content]
  · intro fs pe hpe nm sz content hr
    rw [analyze_directory_files]
    refine List.mem_filterMap.mpr ⟨pe, hpe, ?_⟩
    unfold entryToFile
    rw [hr]
    simp

/-- C6 witness: a concrete scan with an unreadable file whose record still
appears. -/
theorem hash_unavailable_witness :
    get_file_hash false 3 [1, 2, 3] = none ∧
    get_file_info "r" ["locked.txt"] 3 [1, 2, 3] true false [] =
      (some (mkFileInfo "r" ["locked.txt"] 3 [1, 2, 3] false), [], []) ∧
    mkFileInfo "r" ["locked.txt"] 3 [1, 2, 3] false ∈
      (analyze_directory (.dir "r" true [.file "locked.txt" 3 [1, 2, 3] true false])).files := by
  refine ⟨(hash_unavailable_excluded_from_dedup_only).1 3 [1, 2, 3],
    ((hash_unavailable_excluded_from_dedup_only).2.1 "r" ["locked.txt"] 3 [1, 2, 3] []).1, ?_⟩
  exact (hash_unavailable_excluded_from_dedup_only).2.2
    (.dir "r" true [.file "locked.txt" 3 [1, 2, 3] true false])
    (["locked.txt"], FSNode.file "locked.txt" 3 [1, 2, 3] true false)
    (by simp [safe_walk, walkItems, FSNode.isDirNoFollow, FSNode.name])
    "locked.txt" 3 [1, 2, 3] rfl

/-! ## C5: an unlistable subtree never aborts the scan -/

theorem walkItems_append :
    ∀ (xs ys : List FSNode) (pfx : List String),
      (walkItems pfx (xs ++ ys)).1 = (walkItems pfx xs).1 ++ (walkItems pfx ys).1 ∧
      (walkItems pfx (xs ++ ys)).2 = (walkItems pfx xs).2 ++ (walkItems pfx ys).2 := by
  intro xs
  induction xs with
  | nil => intro ys pfx; simp [walkItems]
  | cons c rest ih =>
      intro ys pfx
      simp only [List.cons_append, walkItems]
      refine ⟨?_, ?_⟩
      · simp [(ih ys pfx).1, List.append_assoc]
      · simp [(ih ys pfx).2, List.append_assoc]

/-- C5.  A directory whose listing fails is yielded itself, contributes an
`Error scanning` entry naming it, and the walk continues with its
siblings; the driving loop (a total function: every `except` in the source
returns control to it) still records the surviving entries, and the file
collection is exactly what it would have been had the unlistable subtree
not existed. -/
theorem nestIn_name (levels : List (String × List FSNode × List FSNode)) {X Y : FSNode}
    (h : X.name = Y.name) : (nestIn levels X).name = (nestIn levels Y).name := by
  cases levels with
  | nil => exact h
  | cons l rest => rfl

theorem nestIn_isDir (levels : List (String × List FSNode × List FSNode)) {X : FSNode}
    (h : X.isDirNoFollow = true) : (nestIn levels X).isDirNoFollow = true := by
  cases levels with
  | nil => exact h
  | cons l rest => rfl

/-- Wherever a subtree sits below a chain of listable ancestors, its own
walk — yields and errors alike — appears inside the root's walk. -/
theorem nest_walk_decomp :
    ∀ (levels : List (String × List FSNode × List FSNode)) (X : FSNode),
      X.isDirNoFollow = true →
      ∀ pfx : List String,
        ∃ A B A2 B2,
          (safe_walk pfx (nestIn levels X)).1 =
            A ++ (safe_walk (pfx ++ spinePath levels X) X).1 ++ B ∧
          (safe_walk pfx (nestIn levels X)).2 =
            A2 ++ (safe_walk (pfx ++ spinePath levels X) X).2 ++ B2 := by
  intro levels
  induction levels with
  | nil =>
      intro X hX pfx
      refine ⟨[], [], [], [], ?_, ?_⟩ <;> simp [nestIn, spinePath]
  | cons l rest ih =>
      obtain ⟨nm0, pre0, post0⟩ := l
      intro X hX pfx
      obtain ⟨A, B, A2, B2, h1, h2⟩ := ih X hX (pfx ++ [(nestIn rest X).name])
      have hdir : (nestIn rest X).isDirNoFollow = true := nestIn_isDir rest hX
      have hw : safe_walk pfx (nestIn ((nm0, pre0, post0) :: rest) X) =
          walkItems pfx (pre0 ++ nestIn rest X :: post0) := rfl
      have happ := walkItems_append pre0 (nestIn rest X :: post0) pfx
      have hcons1 : (walkItems pfx (nestIn rest X :: post0)).1 =
          (pfx ++ [(nestIn rest X).name], nestIn rest X) ::
            ((safe_walk (pfx ++ [(nestIn rest X).name]) (nestIn rest X)).1 ++
              (walkItems pfx post0).1) := by
        simp [walkItems, hdir]
      have hcons2 : (walkItems pfx (nestIn rest X :: post0)).2 =
          (safe_walk (pfx ++ [(nestIn rest X).name]) (nestIn rest X)).2 ++
            (walkItems pfx post0).2 := by
        simp [walkItems, hdir]
      have hsp : (pfx ++ [(nestIn rest X).name]) ++ spinePath rest X =
          pfx ++ spinePath ((nm0, pre0, post0) :: rest) X := by
        simp [spinePath]
      rw [hsp] at h1 h2
      refine ⟨(walkItems pfx pre0).1 ++ ((pfx ++ [(nestIn rest X).name], nestIn rest X) :: A),
        B ++ (walkItems pfx post0).1,
        (walkItems pfx pre0).2 ++ A2,
        B2 ++ (walkItems pfx post0).2, ?_, ?_⟩
      · rw [hw, happ.1, hcons1, h1]
        simp [List.append_assoc]
      · rw [hw, happ.2, hcons2, h2]
        simp [List.append_assoc]

/-- Two subtrees whose walks register the same file records do so from
any position below a chain of listable ancestors. -/
theorem nest_filterMap {α : Type} (f : List String × FSNode → Option α)
    (hf : ∀ (q : List String) (nm' : String) (b' : Bool) (cs' : List FSNode),
      f (q, FSNode.dir nm' b' cs') = none) :
    ∀ (levels : List (String × List FSNode × List FSNode)) (X Y : FSNode),
      X.isDirNoFollow = true → Y.isDirNoFollow = true → X.name = Y.name →
      (∀ q : List String, (safe_walk q X).1.filterMap f = (safe_walk q Y).1.filterMap f) →
      ∀ pfx : List String,
        (safe_walk pfx (nestIn levels X)).1.filterMap f =
          (safe_walk pfx (nestIn levels Y)).1.filterMap f := by
  intro levels
  induction levels with
  | nil => intro X Y _ _ _ h pfx; exact h pfx
  | cons l rest ih =>
      obtain ⟨nm0, pre0, post0⟩ := l
      intro X Y hX hY hnm h pfx
      have hdirX : (nestIn rest X).isDirNoFollow = true := nestIn_isDir rest hX
      have hdirY : (nestIn rest Y).isDirNoFollow = true := nestIn_isDir rest hY
      have hname : (nestIn rest X).name = (nestIn rest Y).name := nestIn_name rest hnm
      have hwX : safe_walk pfx (nestIn ((nm0, pre0, post0) :: rest) X) =
          walkItems pfx (pre0 ++ nestIn rest X :: post0) := rfl
      have hwY : safe_walk pfx (nestIn ((nm0, pre0, post0) :: rest) Y) =
          walkItems pfx (pre0 ++ nestIn rest Y :: post0) := rfl
      have hconsX : (walkItems pfx (nestIn rest X :: post0)).1 =
          (pfx ++ [(nestIn rest X).name], nestIn rest X) ::
            ((safe_walk (pfx ++ [(nestIn rest X).name]) (nestIn rest X)).1 ++
              (walkItems pfx post0).1) := by
        simp [walkItems, hdirX]
      have hconsY : (walkItems pfx (nestIn rest Y :: post0)).1 =
          (pfx ++ [(nestIn rest Y).name], nestIn rest Y) ::
            ((safe_walk (pfx ++ [(nestIn rest Y).name]) (nestIn rest Y)).1 ++
              (walkItems pfx post0).1) := by
        simp [walkItems, hdirY]
      have hnoneX : f (pfx ++ [(nestIn rest X).name], nestIn rest X) = none := by
        obtain ⟨nm', b', cs', hx⟩ : ∃ nm' b' cs', nestIn rest X = FSNode.dir nm' b' cs' := by
          cases hh : nestIn rest X with
          | dir nm' b' cs' => exact ⟨nm', b', cs', rfl⟩
          | file nm' sz' c' st' rd' => rw [hh] at hdirX; cases hdirX
          | symlink nm' t' => rw [hh] at hdirX; cases hdirX
        rw [hx]
        exact hf _ _ _ _
      have hnoneY : f (pfx ++ [(nestIn rest Y).name], nestIn rest Y) = none := by
        obtain ⟨nm', b', cs', hy⟩ : ∃ nm' b' cs', nestIn rest Y = FSNode.dir nm' b' cs' := by
          cases hh : nestIn rest Y with
          | dir nm' b' cs' => exact ⟨nm', b', cs', rfl⟩
          | file nm' sz' c' st' rd' => rw [hh] at hdirY; cases hdirY
          | symlink nm' t' => rw [hh] at hdirY; cases hdirY
        rw [hy]
        exact hf _ _ _ _
      have hsub : (safe_walk (pfx ++ [(nestIn rest X).name]) (nestIn rest X)).1.filterMap f =
          (safe_walk (pfx ++ [(nestIn rest Y).name]) (nestIn rest Y)).1.filterMap f := by
        rw [← hname]
        exact ih X Y hX hY hnm h (pfx ++ [(nestIn rest X).name])
      rw [hwX, hwY, (walkItems_append pre0 (nestIn rest X :: post0) pfx).1,
        (walkItems_append pre0 (nestIn rest Y :: post0) pfx).1,
        hconsX, hconsY, List.filterMap_append, List.filterMap_append,
        List.filterMap_cons, List.filterMap_cons, hnoneX, hnoneY,
        List.filterMap_append, List.filterMap_append, hsub]

/-- C5.  Wherever in the tree a directory's listing fails — at any depth
below any chain of listable ancestors, with arbitrary siblings at every
level — that directory is yielded itself, contributes an `Error scanning`
entry naming it, and the walk continues with its siblings; the failing
directory's sibling blocks appear intact inside the full scan's walk, the
full scan's error sink contains the entry naming the directory, and the
driving loop (a total function: every `except` in the source returns
control to it) produces exactly the file collection it would have
produced had the unlistable subtree not existed. -/
theorem unlistable_subtree_continues
    (levels : List (String × List FSNode × List FSNode))
    (nm bnm : String) (bcs pre post : List FSNode) :
    (safe_walk (spinePath levels (.dir nm true (pre ++ .dir bnm false bcs :: post)))
        (.dir nm true (pre ++ .dir bnm false bcs :: post))).1 =
      (walkItems (spinePath levels (.dir nm true (pre ++ .dir bnm false bcs :: post))) pre).1 ++
        (spinePath levels (.dir nm true (pre ++ .dir bnm false bcs :: post)) ++ [bnm],
          FSNode.dir bnm false bcs) ::
        (walkItems (spinePath levels (.dir nm true (pre ++ .dir bnm false bcs :: post))) post).1 ∧
    (safe_walk (spinePath levels (.dir nm true (pre ++ .dir bnm false bcs :: post)))
        (.dir nm true (pre ++ .dir bnm false bcs :: post))).2 =
      (walkItems (spinePath levels (.dir nm true (pre ++ .dir bnm false bcs :: post))) pre).2 ++
        ScanError.scanDir
          (spinePath levels (.dir nm true (pre ++ .dir bnm false bcs :: post)) ++ [bnm]) ::
        (walkItems (spinePath levels (.dir nm true (pre ++ .dir bnm false bcs :: post))) post).2 ∧
    (∃ A B, (safe_walk [] (nestIn levels (.dir nm true (pre ++ .dir bnm false bcs :: post)))).1 =
      A ++ ((walkItems (spinePath levels (.dir nm true (pre ++ .dir bnm false bcs :: post))) pre).1 ++
        (spinePath levels (.dir nm true (pre ++ .dir bnm false bcs :: post)) ++ [bnm],
          FSNode.dir bnm false bcs) ::
        (walkItems (spinePath levels (.dir nm true (pre ++ .dir bnm false bcs :: post))) post).1) ++ B) ∧
    ScanError.scanDir
        (spinePath levels (.dir nm true (pre ++ .dir bnm false bcs :: post)) ++ [bnm]) ∈
      (analyze_directory (nestIn levels (.dir nm true (pre ++ .dir bnm false bcs :: post)))).errors ∧
    (analyze_directory (nestIn levels (.dir nm true (pre ++ .dir bnm false bcs :: post)))).files =
      (analyze_directory (nestIn levels (.dir nm true (pre ++ post)))).files := by
  have hlocal : ∀ p : List String,
      (safe_walk p (.dir nm true (pre ++ .dir bnm false bcs :: post))).1 =
        (walkItems p pre).1 ++ (p ++ [bnm], FSNode.dir bnm false bcs) ::
          (walkItems p post).1 ∧
      (safe_walk p (.dir nm true (pre ++ .dir bnm false bcs :: post))).2 =
        (walkItems p pre).2 ++ ScanError.scanDir (p ++ [bnm]) ::
          (walkItems p post).2 := by
    intro p
    have hbad : safe_walk (p ++ [bnm]) (FSNode.dir bnm false bcs) =
        ([], [ScanError.scanDir (p ++ [bnm])]) := rfl
    have h1 : (safe_walk p (.dir nm true (pre ++ .dir bnm false bcs :: post))) =
        walkItems p (pre ++ .dir bnm false bcs :: post) := rfl
    have hitems := walkItems_append pre (FSNode.dir bnm false bcs :: post) p
    have hcons1 : (walkItems p (FSNode.dir bnm false bcs :: post)).1 =
        (p ++ [bnm], FSNode.dir bnm false bcs) :: (walkItems p post).1 := by
      simp [walkItems, FSNode.isDirNoFollow, FSNode.name, hbad]
    have hcons2 : (walkItems p (FSNode.dir bnm false bcs :: post)).2 =
        ScanError.scanDir (p ++ [bnm]) :: (walkItems p post).2 := by
      simp [walkItems, FSNode.isDirNoFollow, FSNode.name, hbad]
    exact ⟨by rw [h1, hitems.1, hcons1], by rw [h1, hitems.2, hcons2]⟩
  obtain ⟨A, B, A2, B2, hdec1, hdec2⟩ := nest_walk_decomp levels
    (.dir nm true (pre ++ .dir bnm false bcs :: post)) rfl []
  rw [List.nil_append] at hdec1 hdec2
  have hloc := hlocal (spinePath levels (.dir nm true (pre ++ .dir bnm false bcs :: post)))
  refine ⟨hloc.1, hloc.2, ⟨A, B, ?_⟩, ?_, ?_⟩
  · rw [hdec1, hloc.1]
  · rw [analyze_directory_errors, hdec2, hloc.2]
    refine List.mem_append_left _ (List.mem_append_left _ (List.mem_append_right _ ?_))
    exact List.mem_append_right _ (List.mem_cons_self _ _)
  · have hroots : (nestIn levels (FSNode.dir nm true (pre ++ FSNode.dir bnm false bcs :: post))).name =
        (nestIn levels (FSNode.dir nm true (pre ++ post))).name :=
      nestIn_name levels rfl
    rw [analyze_directory_files, analyze_directory_files, hroots]
    refine nest_filterMap
      (entryToFile (nestIn levels (FSNode.dir nm true (pre ++ post))).name)
      (fun q nm' b' cs' => rfl) levels
      (FSNode.dir nm true (pre ++ FSNode.dir bnm false bcs :: post))
      (FSNode.dir nm true (pre ++ post)) rfl rfl rfl ?_ []
    intro q
    have hl := (hlocal q).1
    have hother : (safe_walk q (.dir nm true (pre ++ post))).1 =
        (walkItems q pre).1 ++ (walkItems q post).1 :=
      (walkItems_append pre post q).1
    rw [hl, hother, List.filterMap_append, List.filterMap_append, List.filterMap_cons]
    rw [show entryToFile (nestIn levels (FSNode.dir nm true (pre ++ post))).name
      (q ++ [bnm], FSNode.dir bnm false bcs) = none from rfl]

/-! ## C9: the aggregator's re-walk -/

theorem walkLevel_eq_walkItems (cs : List FSNode)
    (ihc : ∀ c ∈ cs, ∀ pfx : List String,
      (calculate_folder_size c).1 = ((safe_walk pfx c).1.filterMap entrySizeContrib).sum ∧
      (calculate_folder_size c).2.1 = ((safe_walk pfx c).1.filter isFileEntry).length ∧
      (calculate_folder_size c).2.2 = ((safe_walk pfx c).1.filter isDirEntry).length) :
    ∀ pfx : List String,
      (walkLevel cs).1 = ((walkItems pfx cs).1.filterMap entrySizeContrib).sum ∧
      (walkLevel cs).2.1 = ((walkItems pfx cs).1.filter isFileEntry).length ∧
      (walkLevel cs).2.2 = ((walkItems pfx cs).1.filter isDirEntry).length := by
  induction cs with
  | nil => intro pfx; simp [walkLevel, walkItems]
  | cons c rest ih =>
      intro pfx
      have ihr := ih (fun c' hc' => ihc c' (List.mem_cons_of_mem _ hc')) pfx
      have hhead : entrySizeContrib (pfx ++ [c.name], c) =
          (match resolve c with
            | .file _ sz _ st _ => some (if st then sz else 0)
            | _ => none) := rfl
      cases c with
      | file nm sz content st rd =>
          simp only [walkItems, walkLevel, FSNode.isDirNoFollow]
          simp [entrySizeContrib, isFileEntry, isDirEntry, resolve,
            ihr.1, ihr.2.1, ihr.2.2]
      | dir nm b cs' =>
          have ihc' := ihc (.dir nm b cs') (List.mem_cons_self _ _)
            (pfx ++ [FSNode.name (.dir nm b cs')])
          simp only [walkItems, walkLevel, FSNode.isDirNoFollow, if_pos,
            show resolve (FSNode.dir nm b cs') = FSNode.dir nm b cs' from rfl]
          refine ⟨?_, ?_, ?_⟩
          · simp [entrySizeContrib, isFileEntry, isDirEntry, resolve,
              List.filterMap_append, ihr.1, ihc'.1]
          · simp [entrySizeContrib, isFileEntry, isDirEntry, resolve,
              List.filter_append, ihr.2.1, ihc'.2.1]
          · have hd : isDirEntry (pfx ++ [FSNode.name (.dir nm b cs')], FSNode.dir nm b cs') = true := rfl
            simp only [List.filter_cons, hd, List.filter_append, List.length_cons,
              List.length_append, if_pos]
            rw [ihr.2.2, ihc'.2.2]
      | symlink nm t =>
          have hres : resolve (FSNode.symlink nm t) = resolve t := rfl
          cases hr : resolve t with
          | file nm' sz' content' st' rd' =>
              simp only [walkItems, walkLevel, FSNode.isDirNoFollow]
              simp [entrySizeContrib, isFileEntry, isDirEntry, hres, hr,
                ihr.1, ihr.2.1, ihr.2.2]
          | dir nm' b' cs' =>
              simp only [walkItems, walkLevel, FSNode.isDirNoFollow]
              simp [entrySizeContrib, isFileEntry, isDirEntry, hres, hr,
                ihr.1, ihr.2.1, ihr.2.2]
          | symlink nm' t' =>
              simp only [walkItems, walkLevel, FSNode.isDirNoFollow]
              simp [entrySizeContrib, isFileEntry, isDirEntry, hres, hr,
                ihr.1, ihr.2.1, ihr.2.2]

theorem calculate_folder_size_eq_walk :
    ∀ n : FSNode, ∀ pfx : List String,
      (calculate_folder_size n).1 = ((safe_walk pfx n).1.filterMap entrySizeContrib).sum ∧
      (calculate_folder_size n).2.1 = ((safe_walk pfx n).1.filter isFileEntry).length ∧
      (calculate_folder_size n).2.2 = ((safe_walk pfx n).1.filter isDirEntry).length := by
  refine FSNode.sizeInd (motive := fun n => ∀ pfx : List String,
    (calculate_folder_size n).1 = ((safe_walk pfx n).1.filterMap entrySizeContrib).sum ∧
    (calculate_folder_size n).2.1 = ((safe_walk pfx n).1.filter isFileEntry).length ∧
    (calculate_folder_size n).2.2 = ((safe_walk pfx n).1.filter isDirEntry).length) ?_
  intro n ihn pfx
  match n with
  | .file nm sz content st rd => simp [calculate_folder_size, safe_walk]
  | .symlink nm t =>
      have h1 : safe_walk pfx (.symlink nm t) = safe_walk pfx t := rfl
      have h2 : calculate_folder_size (.symlink nm t) = calculate_folder_size t := rfl
      rw [h1, h2]
      exact ihn t sizeOf_target_lt pfx
  | .dir nm false cs => simp [calculate_folder_size, safe_walk]
  | .dir nm true cs =>
      have h1 : calculate_folder_size (.dir nm true cs) = walkLevel cs := rfl
      have h2 : safe_walk pfx (.dir nm true cs) = walkItems pfx cs := rfl
      rw [h1, h2]
      exact walkLevel_eq_walkItems cs
        (fun c hc => ihn c (sizeOf_child_lt hc)) pfx

theorem immediate_le_walkLevel :
    ∀ cs : List FSNode,
      (cs.filterMap (fun c =>
        match resolve c with
        | .file _ sz _ st _ => if st then some sz else none
        | _ => none)).sum ≤ (walkLevel cs).1 := by
  intro cs
  induction cs with
  | nil => simp [walkLevel]
  | cons c rest ih =>
      simp only [List.filterMap_cons, walkLevel]
      cases hr : resolve c with
      | file nm sz content st rd =>
          cases st with
          | true => simp [hr]; omega
          | false => simp [hr]; omega
      | dir nm b cs' => simp [hr]; omega
      | symlink nm t => simp [hr]; exact ih

theorem walkItems_errors_scanDir (cs : List FSNode)
    (ihc : ∀ c ∈ cs, ∀ (pfx : List String) e, e ∈ (safe_walk pfx c).2 →
      ∃ p, e = ScanError.scanDir p) :
    ∀ (pfx : List String) e, e ∈ (walkItems pfx cs).2 → ∃ p, e = ScanError.scanDir p := by
  induction cs with
  | nil => intro pfx e h; cases h
  | cons c rest ih =>
      intro pfx e h
      simp only [walkItems, List.mem_append] at h
      rcases h with h | h
      · by_cases hd : c.isDirNoFollow
        · rw [if_pos hd] at h
          exact ihc c (List.mem_cons_self _ _) _ e h
        · rw [if_neg hd] at h
          cases h
      · exact ih (fun c' hc' => ihc c' (List.mem_cons_of_mem _ hc')) pfx e h

theorem walk_errors_scanDir :
    ∀ (n : FSNode) (pfx : List String) e, e ∈ (safe_walk pfx n).2 →
      ∃ p, e = ScanError.scanDir p := by
  refine FSNode.sizeInd (motive := fun n => ∀ (pfx : List String) e,
    e ∈ (safe_walk pfx n).2 → ∃ p, e = ScanError.scanDir p) ?_
  intro n ihn pfx e h
  match n with
  | .file nm sz content st rd =>
      simp only [safe_walk, List.mem_singleton] at h
      exact ⟨pfx, h⟩
  | .symlink nm t => exact ihn t sizeOf_target_lt pfx e h
  | .dir nm false cs =>
      simp only [safe_walk, List.mem_singleton] at h
      exact ⟨pfx, h⟩
  | .dir nm true cs =>
      exact walkItems_errors_scanDir cs (fun c hc => ihn c (sizeOf_child_lt hc)) pfx e h

/-- C9.  The aggregator returns exactly the transitive totals over the
entries its re-walk can see — every descendant file is counted, but only
accessible files contribute bytes (skip-and-continue) — it never appends
to the error sink (the whole scan's errors are only scandir failures and
stat failures), and its byte total dominates the summed sizes of the
directory's accessible immediate file children. -/
theorem aggregator_totals :
    (∀ n : FSNode,
      (calculate_folder_size n).1 = ((safe_walk [] n).1.filterMap entrySizeContrib).sum ∧
      (calculate_folder_size n).2.1 = ((safe_walk [] n).1.filter isFileEntry).length ∧
      (calculate_folder_size n).2.2 = ((safe_walk [] n).1.filter isDirEntry).length) ∧
    (∀ n : FSNode, immediateFileSum n ≤ (calculate_folder_size n).1) ∧
    (∀ fs : FSNode, ∀ e ∈ (analyze_directory fs).errors,
      (∃ p, e = ScanError.scanDir p) ∨ (∃ p, e = ScanError.readFile p)) := by
  refine ⟨fun n => calculate_folder_size_eq_walk n [], ?_, ?_⟩
  · intro n
    match n with
    | .file nm sz content st rd => simp [immediateFileSum]
    | .symlink nm t => simp [immediateFileSum]
    | .dir nm false cs => simp [immediateFileSum]
    | .dir nm true cs =>
        have h1 : calculate_folder_size (.dir nm true cs) = walkLevel cs := rfl
        rw [h1]
        exact immediate_le_walkLevel cs
  · intro fs e he
    rw [analyze_directory_errors] at he
    rcases List.mem_append.mp he with h | h
    · exact Or.inl (walk_errors_scanDir fs [] e h)
    · obtain ⟨pe, _, hsome⟩ := List.mem_filterMap.mp h
      unfold entryToError at hsome
      cases hr : resolve pe.2 with
      | file nm sz content st rd =>
          cases st with
          | false =>
              rw [hr] at hsome
              simp only [Option.some.injEq] at hsome
              exact Or.inr ⟨pe.1, hsome.symm⟩
          | true => rw [hr] at hsome; cases hsome
      | dir nm listable cs => rw [hr] at hsome; cases hsome
      | symlink nm t => rw [hr] at hsome; cases hsome

/-- C9 witness: the theorem applied to a concrete tree with one
inaccessible file. -/
theorem aggregator_totals_witness :
    (ScanError.readFile ["x"] ∈
      (analyze_directory (.dir "r" true [.file "x" 7 [1] false true])).errors) ∧
    ((∃ p, ScanError.readFile ["x"] = ScanError.scanDir p) ∨
      (∃ p, ScanError.readFile ["x"] = ScanError.readFile p)) ∧
    calculate_folder_size (.dir "r" true [.file "x" 7 [1] false true]) = (0, 1, 0) ∧
    immediateFileSum (.dir "r" true [.file "x" 7 [1] false true]) ≤
      (calculate_folder_size (.dir "r" true [.file "x" 7 [1] false true])).1 := by
  have hmem : ScanError.readFile ["x"] ∈
      (analyze_directory (.dir "r" true [.file "x" 7 [1] false true])).errors := by
    rw [analyze_directory_errors]
    simp [safe_walk, walkItems, FSNode.isDirNoFollow, FSNode.name, entryToError, resolve]
  refine ⟨hmem, aggregator_totals.2.2 _ _ hmem, by decide,
    aggregator_totals.2.1 (.dir "r" true [.file "x" 7 [1] false true])⟩

/-! ## C10: the extension summary -/

theorem lookupType_cons (k : String) (v : Nat × Nat) (ts : TypeMap) (e : String) :
    lookupType ((k, v) :: ts) e = if k = e then some v else lookupType ts e := by
  unfold lookupType
  by_cases h : k = e
  · subst h
    simp [List.find?]
  · have hb : (k == e) = false := beq_eq_false_iff_ne.mpr h
    simp [List.find?, hb, h]

theorem typeCount_bump (ts : TypeMap) (x : String) (n : Nat) (e : String) :
    typeCount (bumpType ts x n) e = typeCount ts e + (if x = e then 1 else 0) := by
  induction ts with
  | nil =>
      unfold bumpType typeCount
      rw [lookupType_cons]
      by_cases h : x = e <;> simp [h, lookupType, List.find?]
  | cons b rest ih =>
      obtain ⟨e', v⟩ := b
      obtain ⟨c, s⟩ := v
      unfold bumpType
      by_cases hbx : e' = x
      · subst hbx
        rw [if_pos rfl]
        unfold typeCount
        rw [lookupType_cons, lookupType_cons]
        by_cases he : e' = e <;> simp [he]
      · rw [if_neg hbx]
        unfold typeCount
        rw [lookupType_cons, lookupType_cons]
        by_cases he : e' = e
        · subst he
          have : ¬ x = e' := fun hc => hbx hc.symm
          simp [this]
        · simp only [if_neg he]
          have := ih
          unfold typeCount at this
          exact this

theorem typeSize_bump (ts : TypeMap) (x : String) (n : Nat) (e : String) :
    typeSize (bumpType ts x n) e = typeSize ts e + (if x = e then n else 0) := by
  induction ts with
  | nil =>
      unfold bumpType typeSize
      rw [lookupType_cons]
      by_cases h : x = e <;> simp [h, lookupType, List.find?]
  | cons b rest ih =>
      obtain ⟨e', v⟩ := b
      obtain ⟨c, s⟩ := v
      unfold bumpType
      by_cases hbx : e' = x
      · subst hbx
        rw [if_pos rfl]
        unfold typeSize
        rw [lookupType_cons, lookupType_cons]
        by_cases he : e' = e <;> simp [he]
      · rw [if_neg hbx]
        unfold typeSize
        rw [lookupType_cons, lookupType_cons]
        by_cases he : e' = e
        · subst he
          have : ¬ x = e' := fun hc => hbx hc.symm
          simp [this]
        · simp only [if_neg he]
          have := ih
          unfold typeSize at this
          exact this

theorem typeCount_foldl (fis : List FileInfo) :
    ∀ (ts : TypeMap) (e : String),
      typeCount (fis.foldl (fun ts fi => bumpType ts fi.extension fi.size_bytes) ts) e =
        typeCount ts e + (fis.filter (fun fi => fi.extension = e)).length := by
  induction fis with
  | nil => intro ts e; simp
  | cons fi rest ih =>
      intro ts e
      rw [List.foldl_cons, ih, typeCount_bump, List.filter_cons]
      by_cases h : fi.extension = e
      · simp [h]
        omega
      · simp [h]

theorem typeSize_foldl (fis : List FileInfo) :
    ∀ (ts : TypeMap) (e : String),
      typeSize (fis.foldl (fun ts fi => bumpType ts fi.extension fi.size_bytes) ts) e =
        typeSize ts e +
          (((fis.filter (fun fi => fi.extension = e)).map FileInfo.size_bytes).sum) := by
  induction fis with
  | nil => intro ts e; simp
  | cons fi rest ih =>
      intro ts e
      rw [List.foldl_cons, ih, typeSize_bump, List.filter_cons]
      by_cases h : fi.extension = e
      · simp [h]
        omega
      · simp [h]

/-- C10.  For every key present in the finished extension summary, the
stored count is the number of collected file records with that extension
and the stored size is the sum of their sizes; files skipped on stat
failure never reach the summary. -/
theorem file_types_summary_consistent (fs : FSNode) (e : String) (c s : Nat)
    (h : lookupType (analyze_directory fs).types e = some (c, s)) :
    c = ((analyze_directory fs).files.filter (fun fi => fi.extension = e)).length ∧
    s = (((analyze_directory fs).files.filter
        (fun fi => fi.extension = e)).map FileInfo.size_bytes).sum := by
  rw [analyze_directory_types] at h
  rw [analyze_directory_files]
  have hc := typeCount_foldl ((safe_walk [] fs).1.filterMap (entryToFile fs.name)) [] e
  have hs := typeSize_foldl ((safe_walk [] fs).1.filterMap (entryToFile fs.name)) [] e
  have h0c : typeCount ([] : TypeMap) e = 0 := rfl
  have h0s : typeSize ([] : TypeMap) e = 0 := rfl
  rw [h0c] at hc
  rw [h0s] at hs
  have hcount : typeCount (((safe_walk [] fs).1.filterMap (entryToFile fs.name)).foldl
      (fun ts fi => bumpType ts fi.extension fi.size_bytes) []) e = c := by
    unfold typeCount
    rw [h]
  have hsize : typeSize (((safe_walk [] fs).1.filterMap (entryToFile fs.name)).foldl
      (fun ts fi => bumpType ts fi.extension fi.size_bytes) []) e = s := by
    unfold typeSize
    rw [h]
  omega

/-- C10 witness: a one-file scan whose summary holds one `.txt` entry of
3 bytes. -/
theorem file_types_summary_consistent_witness :
    lookupType (analyze_directory (.dir "r" true [.file "a.txt" 3 [7] true true])).types
        ".txt" = some (1, 3) ∧
    (1 = ((analyze_directory (.dir "r" true [.file "a.txt" 3 [7] true true])).files.filter
        (fun fi => fi.extension = ".txt")).length ∧
      3 = (((analyze_directory (.dir "r" true [.file "a.txt" 3 [7] true true])).files.filter
        (fun fi => fi.extension = ".txt")).map FileInfo.size_bytes).sum) :=
  ⟨by decide, file_types_summary_consistent
    (.dir "r" true [.file "a.txt" 3 [7] true true]) ".txt" 1 3 (by decide)⟩

/-! ## C1: the scanner's traversal -/

theorem wellFormedAll_mem {cs : List FSNode} (h : wellFormedAll cs = true) :
    ∀ c ∈ cs, wellFormedB c = true := by
  induction cs with
  | nil => intro c hc; cases hc
  | cons c' rest ih =>
      intro c hc
      rw [show wellFormedAll (c' :: rest) = (wellFormedB c' && wellFormedAll rest) from rfl,
        Bool.and_eq_true] at h
      rcases List.mem_cons.mp hc with rfl | hc'
      · exact h.1
      · exact ih h.2 c hc'

theorem wellFormedB_dir {nm : String} {b : Bool} {cs : List FSNode}
    (h : wellFormedB (.dir nm b cs) = true) :
    (cs.map FSNode.name).Nodup ∧ ∀ c ∈ cs, wellFormedB c = true := by
  rw [show wellFormedB (.dir nm b cs) =
    (decide ((cs.map FSNode.name).Nodup) && wellFormedAll cs) from rfl,
    Bool.and_eq_true, decide_eq_true_eq] at h
  exact ⟨h.1, wellFormedAll_mem h.2⟩

theorem allListableAll_mem {cs : List FSNode} (h : allListableAll cs = true) :
    ∀ c ∈ cs, allListableB c = true := by
  induction cs with
  | nil => intro c hc; cases hc
  | cons c' rest ih =>
      intro c hc
      rw [show allListableAll (c' :: rest) = (allListableB c' && allListableAll rest) from rfl,
        Bool.and_eq_true] at h
      rcases List.mem_cons.mp hc with rfl | hc'
      · exact h.1
      · exact ih h.2 c hc'

theorem allListableB_dir {nm : String} {b : Bool} {cs : List FSNode}
    (h : allListableB (.dir nm b cs) = true) :
    b = true ∧ ∀ c ∈ cs, allListableB c = true := by
  rw [show allListableB (.dir nm b cs) = (b && allListableAll cs) from rfl,
    Bool.and_eq_true] at h
  exact ⟨h.1, allListableAll_mem h.2⟩

theorem mem_walkItems_iff {pfx : List String} {cs : List FSNode} {pe : List String × FSNode} :
    pe ∈ (walkItems pfx cs).1 ↔
      ∃ c ∈ cs, pe = (pfx ++ [c.name], c) ∨
        (c.isDirNoFollow = true ∧ pe ∈ (safe_walk (pfx ++ [c.name]) c).1) := by
  induction cs with
  | nil => simp [walkItems]
  | cons c rest ih =>
      constructor
      · intro h
        have h0 : pe ∈ (pfx ++ [c.name], c) ::
            ((if c.isDirNoFollow then safe_walk (pfx ++ [c.name]) c
              else (([] : List (List String × FSNode)), ([] : List ScanError))).1 ++
              (walkItems pfx rest).1) := h
        rcases List.mem_cons.mp h0 with h' | h'
        · exact ⟨c, List.mem_cons_self _ _, Or.inl h'⟩
        · rcases List.mem_append.mp h' with h'' | h''
          · by_cases hd : c.isDirNoFollow
            · rw [if_pos hd] at h''
              exact ⟨c, List.mem_cons_self _ _, Or.inr ⟨hd, h''⟩⟩
            · rw [if_neg hd] at h''
              cases h''
          · obtain ⟨c', hc', hor⟩ := ih.mp h''
            exact ⟨c', List.mem_cons_of_mem _ hc', hor⟩
      · rintro ⟨c', hc', hor⟩
        show pe ∈ (pfx ++ [c.name], c) ::
          ((if c.isDirNoFollow then safe_walk (pfx ++ [c.name]) c
            else (([] : List (List String × FSNode)), ([] : List ScanError))).1 ++
            (walkItems pfx rest).1)
        rcases List.mem_cons.mp hc' with rfl | hc''
        · rcases hor with rfl | ⟨hd, hmem⟩
          · exact List.mem_cons_self _ _
          · refine List.mem_cons_of_mem _ (List.mem_append_left _ ?_)
            rw [if_pos hd]
            exact hmem
        · exact List.mem_cons_of_mem _
            (List.mem_append_right _ (ih.mpr ⟨c', hc'', hor⟩))

/-- Under distinct sibling names, the scandir entry found for a child's
name is that child. -/
theorem find?_name_of_mem {cs : List FSNode} (hnd : (cs.map FSNode.name).Nodup)
    {c : FSNode} (hc : c ∈ cs) :
    cs.find? (fun x => x.name == c.name) = some c :=
  find?_key_of_mem FSNode.name hnd hc

/-- Membership characterization of the walk: under distinct sibling names
and a fully listable tree, a directory's walk yields exactly the pairs
`(pfx ++ segs, x)` where the nonempty path `segs` designates `x` in the
tree, never descending through a symbolic link. -/
theorem mem_safe_walk_iff :
    ∀ n : FSNode, wellFormedB n = true → allListableB n = true →
      n.isDirNoFollow = true →
      ∀ (pfx : List String) (pe : List String × FSNode),
        pe ∈ (safe_walk pfx n).1 ↔
          ∃ segs, segs ≠ [] ∧ pe.1 = pfx ++ segs ∧ entryAt n segs = some pe.2 := by
  refine FSNode.sizeInd (motive := fun n => wellFormedB n = true → allListableB n = true →
    n.isDirNoFollow = true →
    ∀ (pfx : List String) (pe : List String × FSNode),
      pe ∈ (safe_walk pfx n).1 ↔
        ∃ segs, segs ≠ [] ∧ pe.1 = pfx ++ segs ∧ entryAt n segs = some pe.2) ?_
  intro n ihn hwf hal hd pfx pe
  match n with
  | .file nm sz content st rd => cases hd
  | .symlink nm t => cases hd
  | .dir nm b cs =>
      obtain ⟨hb, halc⟩ := allListableB_dir hal
      subst hb
      obtain ⟨hnames, hwfc⟩ := wellFormedB_dir hwf
      have hwalk : safe_walk pfx (.dir nm true cs) = walkItems pfx cs := rfl
      rw [hwalk, mem_walkItems_iff]
      constructor
      · rintro ⟨c, hc, rfl | ⟨hcd, hmem⟩⟩
        · refine ⟨[c.name], by simp, rfl, ?_⟩
          rw [show entryAt (.dir nm true cs) [c.name] =
            (match cs.find? (fun x => x.name == c.name) with
              | some c' => entryAt c' []
              | none => none) from rfl, find?_name_of_mem hnames hc]
          rfl
        · obtain ⟨segs', hne', hp', hat'⟩ :=
            (ihn c (sizeOf_child_lt hc) (hwfc c hc) (halc c hc) hcd
              (pfx ++ [c.name]) pe).mp hmem
          refine ⟨c.name :: segs', by simp, ?_, ?_⟩
          · rw [hp', List.append_assoc]
            rfl
          · rw [show entryAt (.dir nm true cs) (c.name :: segs') =
              (match cs.find? (fun x => x.name == c.name) with
                | some c' => entryAt c' segs'
                | none => none) from rfl, find?_name_of_mem hnames hc]
            exact hat'
      · rintro ⟨segs, hne, hp, hat⟩
        cases segs with
        | nil => exact absurd rfl hne
        | cons s rest =>
            rw [show entryAt (.dir nm true cs) (s :: rest) =
              (match cs.find? (fun x => x.name == s) with
                | some c' => entryAt c' rest
                | none => none) from rfl] at hat
            cases hfind : cs.find? (fun x => x.name == s) with
            | none => rw [hfind] at hat; cases hat
            | some c =>
                rw [hfind] at hat
                have hcmem : c ∈ cs := List.mem_of_find?_eq_some hfind
                have hbeq := List.find?_some hfind
                have hcname : c.name = s := eq_of_beq hbeq
                refine ⟨c, hcmem, ?_⟩
                cases rest with
                | nil =>
                    left
                    have hpe2 : c = pe.2 :=
                      Option.some.inj (show some c = some pe.2 from hat)
                    have hpe1 : pe.1 = pfx ++ [c.name] := by rw [hp, hcname]
                    have hpair : ((pfx ++ [c.name], c) : List String × FSNode) = (pe.1, pe.2) := by
                      rw [hpe1, ← hpe2]
                    rw [hpair]
                | cons r rest' =>
                    right
                    match c, hcmem, hcname, hat with
                    | .file nm' sz' content' st' rd', _, _, hat => cases hat
                    | .symlink nm' t', _, _, hat => cases hat
                    | .dir nm' b' cs', hcmem, hcname, hat =>
                        refine ⟨rfl, ?_⟩
                        refine (ihn (.dir nm' b' cs') (sizeOf_child_lt hcmem)
                          (hwfc _ hcmem) (halc _ hcmem) rfl
                          (pfx ++ [FSNode.name (.dir nm' b' cs')]) pe).mpr ?_
                        refine ⟨r :: rest', by simp, ?_, hat⟩
                        have hs : FSNode.name (.dir nm' b' cs') = s := hcname
                        rw [hp, hs, List.append_assoc]
                        rfl

theorem walkPaths_shape {pfx : List String} {n : FSNode} {q : List String}
    (h : q ∈ walkPaths pfx n) : ∃ s t, q = pfx ++ s :: t := by
  obtain ⟨pe, hpe, rfl⟩ := List.mem_map.mp h
  exact walk_entry_extends n pfx pe hpe

theorem walkItems_path_shape {pfx : List String} {cs : List FSNode} {q : List String}
    (h : q ∈ (walkItems pfx cs).1.map Prod.fst) :
    ∃ c ∈ cs, ∃ t, q = pfx ++ c.name :: t := by
  obtain ⟨pe, hpe, rfl⟩ := List.mem_map.mp h
  obtain ⟨c, hc, hor⟩ := mem_walkItems_iff.mp hpe
  rcases hor with rfl | ⟨hd, hmem⟩
  · exact ⟨c, hc, [], rfl⟩
  · obtain ⟨s, t, hst⟩ := walk_entry_extends c _ pe hmem
    refine ⟨c, hc, s :: t, ?_⟩
    rw [hst, List.append_assoc]
    rfl

theorem seg_head_inj {pfx : List String} {a b : String} {t₁ t₂ : List String}
    (h : pfx ++ a :: t₁ = pfx ++ b :: t₂) : a = b := by
  have h2 := List.append_cancel_left h
  cases h2
  rfl

theorem shape_strict_ext {p q : List String} {s : String} {t : List String}
    (h : q = p ++ s :: t) : p <+: q ∧ p ≠ q := by
  refine ⟨⟨s :: t, h.symm⟩, ?_⟩
  intro he
  rw [← he] at h
  have := congrArg List.length h
  simp at this

theorem nodup_walkItems (cs : List FSNode)
    (hnames : (cs.map FSNode.name).Nodup)
    (ihc : ∀ c ∈ cs, ∀ pfx : List String, (walkPaths pfx c).Nodup) :
    ∀ pfx : List String, ((walkItems pfx cs).1.map Prod.fst).Nodup := by
  induction cs with
  | nil => intro pfx; simp [walkItems]
  | cons c rest ih =>
      intro pfx
      rw [List.map_cons, List.nodup_cons] at hnames
      have hdec : ((walkItems pfx (c :: rest)).1.map Prod.fst) =
          (pfx ++ [c.name]) ::
            (((if c.isDirNoFollow then safe_walk (pfx ++ [c.name]) c
              else (([] : List (List String × FSNode)), ([] : List ScanError))).1.map Prod.fst) ++
              ((walkItems pfx rest).1.map Prod.fst)) := by
        show ((pfx ++ [c.name], c) :: _).map Prod.fst = _
        rw [List.map_cons, List.map_append]
      rw [hdec, List.nodup_cons]
      constructor
      · intro hmem
        rcases List.mem_append.mp hmem with h | h
        · by_cases hd : c.isDirNoFollow
          · rw [if_pos hd] at h
            obtain ⟨s, t, hst⟩ := walkPaths_shape h
            have := congrArg List.length hst
            simp at this
          · rw [if_neg hd] at h
            cases h
        · obtain ⟨c', hc', t, ht⟩ := walkItems_path_shape h
          have hnm : c.name = c'.name :=
            seg_head_inj (show pfx ++ c.name :: [] = pfx ++ c'.name :: t from ht)
          exact hnames.1 (hnm ▸ List.mem_map_of_mem FSNode.name hc')
      · refine List.Nodup.append ?_ ?_ ?_
        · by_cases hd : c.isDirNoFollow
          · rw [if_pos hd]
            exact ihc c (List.mem_cons_self _ _) (pfx ++ [c.name])
          · rw [if_neg hd]
            simp
        · exact ih hnames.2 (fun c' hc' pfx' => ihc c' (List.mem_cons_of_mem _ hc') pfx') pfx
        · intro q hq hq'
          by_cases hd : c.isDirNoFollow
          · rw [if_pos hd] at hq
            obtain ⟨s, t, hst⟩ := walkPaths_shape hq
            obtain ⟨c', hc', t', ht'⟩ := walkItems_path_shape hq'
            rw [List.append_assoc] at hst
            have h1 : q = pfx ++ c.name :: (s :: t) := hst
            have hnm : c.name = c'.name := seg_head_inj (h1.symm.trans ht')
            exact hnames.1 (hnm ▸ List.mem_map_of_mem FSNode.name hc')
          · rw [if_neg hd] at hq
            cases hq

theorem nodup_walkPaths :
    ∀ n : FSNode, wellFormedB n = true → ∀ pfx : List String, (walkPaths pfx n).Nodup := by
  refine FSNode.sizeInd (motive := fun n => wellFormedB n = true →
    ∀ pfx : List String, (walkPaths pfx n).Nodup) ?_
  intro n ihn hwf pfx
  match n with
  | .file nm sz content st rd => simp [walkPaths, safe_walk]
  | .symlink nm t =>
      have hwft : wellFormedB t = true := hwf
      exact ihn t sizeOf_target_lt hwft pfx
  | .dir nm false cs => simp [walkPaths, safe_walk]
  | .dir nm true cs =>
      obtain ⟨hnames, hwfc⟩ := wellFormedB_dir hwf
      exact nodup_walkItems cs hnames
        (fun c hc pfx' => ihn c (sizeOf_child_lt hc) (hwfc c hc) pfx') pfx

theorem ext_names_clash {pfx : List String} {x y : String} {t₁ t₂ : List String}
    {p q : List String} (hp : p = pfx ++ x :: t₁) (hq : q = pfx ++ y :: t₂)
    (hpre : p <+: q) : x = y := by
  obtain ⟨u, hu⟩ := hpre
  have h1 : q = pfx ++ x :: (t₁ ++ u) := by
    rw [← hu, hp, List.append_assoc]
    rfl
  exact seg_head_inj (h1.symm.trans hq)

theorem contiguous_walkItems (cs : List FSNode) :
    (cs.map FSNode.name).Nodup →
    (∀ c ∈ cs, ∀ pfx : List String, ∀ p ∈ walkPaths pfx c,
      PreorderBlock (walkPaths pfx c) p) →
    ∀ pfx : List String, ∀ p ∈ (walkItems pfx cs).1.map Prod.fst,
      PreorderBlock ((walkItems pfx cs).1.map Prod.fst) p := by
  induction cs with
  | nil => intro _ _ pfx p hp; simp [walkItems] at hp
  | cons c rest ih =>
      intro hnames ihc pfx p hp
      rw [List.map_cons, List.nodup_cons] at hnames
      have ihrest := ih hnames.2 (fun c' hc' => ihc c' (List.mem_cons_of_mem _ hc'))
      have hrest_shape : ∀ q ∈ (walkItems pfx rest).1.map Prod.fst,
          ∃ c' ∈ rest, ∃ t, q = pfx ++ c'.name :: t := fun q hq => walkItems_path_shape hq
      have hext_clash : ∀ (p' : List String) (t : List String),
          p' = pfx ++ c.name :: t →
          ∀ q ∈ (walkItems pfx rest).1.map Prod.fst, ¬(p' <+: q ∧ p' ≠ q) := by
        rintro p' t hp' q hq ⟨hpre, -⟩
        obtain ⟨c', hc', t', ht'⟩ := hrest_shape q hq
        exact hnames.1 (ext_names_clash hp' ht' hpre ▸ List.mem_map_of_mem FSNode.name hc')
      by_cases hd : c.isDirNoFollow
      · have hdec : ((walkItems pfx (c :: rest)).1.map Prod.fst) =
            (pfx ++ [c.name]) :: (walkPaths (pfx ++ [c.name]) c ++
              ((walkItems pfx rest).1.map Prod.fst)) := by
          show ((pfx ++ [c.name], c) :: _).map Prod.fst = _
          rw [List.map_cons, List.map_append, if_pos hd]
          rfl
        rw [hdec] at hp ⊢
        have hsub_shape : ∀ q ∈ walkPaths (pfx ++ [c.name]) c,
            ∃ s t, q = (pfx ++ [c.name]) ++ s :: t := fun q hq => walkPaths_shape hq
        rcases List.mem_cons.mp hp with rfl | hp'
        · refine ⟨[], walkPaths (pfx ++ [c.name]) c,
            (walkItems pfx rest).1.map Prod.fst, rfl, ?_, ?_, ?_⟩
          · intro q hq
            obtain ⟨s, t, hst⟩ := hsub_shape q hq
            exact shape_strict_ext hst
          · intro q hq; cases hq
          · exact hext_clash (pfx ++ [c.name]) [] rfl
        · rcases List.mem_append.mp hp' with hps | hpr
          · obtain ⟨a', d', b', heq', hd', ha', hb'⟩ :=
              ihc c (List.mem_cons_self _ _) (pfx ++ [c.name]) p hps
            obtain ⟨s0, t0, hshape⟩ := hsub_shape p hps
            have hpseg : p = pfx ++ c.name :: (s0 :: t0) := by
              rw [hshape, List.append_assoc]
              rfl
            refine ⟨(pfx ++ [c.name]) :: a', d', b' ++ (walkItems pfx rest).1.map Prod.fst,
              ?_, hd', ?_, ?_⟩
            · rw [heq']
              simp [List.append_assoc]
            · intro q hq
              rcases List.mem_cons.mp hq with rfl | hq'
              · rintro ⟨hpre, -⟩
                have h1 := hpre.length_le
                have h2 := congrArg List.length hshape
                rw [List.length_append, List.length_cons] at h2
                omega
              · exact ha' q hq'
            · intro q hq
              rcases List.mem_append.mp hq with hq' | hq'
              · exact hb' q hq'
              · exact hext_clash p (s0 :: t0) hpseg q hq'
          · obtain ⟨a'', d'', b'', heq'', hd'', ha'', hb''⟩ := ihrest pfx p hpr
            obtain ⟨c', hc', t', hpseg⟩ := hrest_shape p hpr
            have hnot_sub : ∀ q, (∃ s t, q = (pfx ++ [c.name]) ++ s :: t) →
                ¬(p <+: q ∧ p ≠ q) := by
              rintro q ⟨s, t, hq⟩ ⟨hpre, -⟩
              have hqseg : q = pfx ++ c.name :: (s :: t) := by
                rw [hq, List.append_assoc]
                rfl
              exact hnames.1 (ext_names_clash hpseg hqseg hpre ▸
                List.mem_map_of_mem FSNode.name hc')
            refine ⟨(pfx ++ [c.name]) :: (walkPaths (pfx ++ [c.name]) c ++ a''),
              d'', b'', ?_, hd'', ?_, hb''⟩
            · rw [heq'']
              simp [List.append_assoc]
            · intro q hq
              rcases List.mem_cons.mp hq with rfl | hq'
              · rintro ⟨hpre, -⟩
                have hqseg : (pfx ++ [c.name] : List String) = pfx ++ c.name :: [] := rfl
                exact hnames.1 (ext_names_clash hpseg hqseg hpre ▸
                  List.mem_map_of_mem FSNode.name hc')
              · rcases List.mem_append.mp hq' with hq'' | hq''
                · exact hnot_sub q (hsub_shape q hq'')
                · exact ha'' q hq''
      · have hdec : ((walkItems pfx (c :: rest)).1.map Prod.fst) =
            (pfx ++ [c.name]) :: ((walkItems pfx rest).1.map Prod.fst) := by
          show ((pfx ++ [c.name], c) :: _).map Prod.fst = _
          rw [List.map_cons, List.map_append, if_neg hd]
          rfl
        rw [hdec] at hp ⊢
        rcases List.mem_cons.mp hp with rfl | hpr
        · exact ⟨[], [], (walkItems pfx rest).1.map Prod.fst, rfl,
            fun q hq => absurd hq (List.not_mem_nil _),
            fun q hq => absurd hq (List.not_mem_nil _),
            hext_clash (pfx ++ [c.name]) [] rfl⟩
        · obtain ⟨a'', d'', b'', heq'', hd'', ha'', hb''⟩ := ihrest pfx p hpr
          obtain ⟨c', hc', t', hpseg⟩ := hrest_shape p hpr
          refine ⟨(pfx ++ [c.name]) :: a'', d'', b'', by rw [heq'']; rfl, hd'', ?_, hb''⟩
          intro q hq
          rcases List.mem_cons.mp hq with rfl | hq'
          · rintro ⟨hpre, -⟩
            have hqseg : (pfx ++ [c.name] : List String) = pfx ++ c.name :: [] := rfl
            exact hnames.1 (ext_names_clash hpseg hqseg hpre ▸
              List.mem_map_of_mem FSNode.name hc')
          · exact ha'' q hq'

theorem contiguous_walkPaths :
    ∀ n : FSNode, wellFormedB n = true →
      ∀ pfx : List String, ∀ p ∈ walkPaths pfx n, PreorderBlock (walkPaths pfx n) p := by
  refine FSNode.sizeInd (motive := fun n => wellFormedB n = true →
    ∀ pfx : List String, ∀ p ∈ walkPaths pfx n, PreorderBlock (walkPaths pfx n) p) ?_
  intro n ihn hwf pfx p hp
  match n with
  | .file nm sz content st rd => simp [walkPaths, safe_walk] at hp
  | .symlink nm t =>
      have hwft : wellFormedB t = true := hwf
      exact ihn t sizeOf_target_lt hwft pfx p hp
  | .dir nm false cs => simp [walkPaths, safe_walk] at hp
  | .dir nm true cs =>
      obtain ⟨hnames, hwfc⟩ := wellFormedB_dir hwf
      exact contiguous_walkItems cs hnames
        (fun c hc => ihn c (sizeOf_child_lt hc) (hwfc c hc)) pfx p hp

/-- C1.  On a well-formed (distinct sibling names), fully listable root
directory, `safe_walk` yields a finite depth-first sequence containing
exactly the entries reachable from the root without descending through a
symbolic link — each exactly once (`Nodup`) — and in pre-order: right
after each yielded path come all of its descendants in the sequence,
before any of its siblings. -/
theorem safe_walk_preorder_complete (fs : FSNode) (hd : fs.isDirNoFollow = true)
    (hwf : wellFormedB fs = true) (hal : allListableB fs = true) :
    (walkPaths [] fs).Nodup ∧
    (∀ p, p ∈ walkPaths [] fs ↔ (p ≠ [] ∧ (entryAt fs p).isSome)) ∧
    (∀ p ∈ walkPaths [] fs, PreorderBlock (walkPaths [] fs) p) := by
  refine ⟨nodup_walkPaths fs hwf [], ?_, fun p hp => contiguous_walkPaths fs hwf [] p hp⟩
  intro p
  constructor
  · intro hp
    obtain ⟨pe, hpe, rfl⟩ := List.mem_map.mp hp
    obtain ⟨segs, hne, hp1, hat⟩ := (mem_safe_walk_iff fs hwf hal hd [] pe).mp hpe
    rw [List.nil_append] at hp1
    rw [hp1]
    refine ⟨hne, ?_⟩
    rw [hat]
    rfl
  · rintro ⟨hne, hsome⟩
    obtain ⟨x, hx⟩ := Option.isSome_iff_exists.mp hsome
    refine List.mem_map.mpr ⟨(p, x), ?_, rfl⟩
    exact (mem_safe_walk_iff fs hwf hal hd [] (p, x)).mpr
      ⟨p, hne, (List.nil_append p).symm, hx⟩

/-- C1 witness: the theorem applied to a concrete tree containing a
nested directory and a symbolic link to a populated directory. -/
theorem safe_walk_preorder_complete_witness :
    ((FSNode.dir "r" true
      [.file "a.txt" 3 [7] true true,
       .dir "s" true [.file "b" 1 [1] true true],
       .symlink "ln" (.dir "t" true [.file "hid" 2 [2] true true]),
       .file "c" 4 [4] true true]).isDirNoFollow = true) ∧
    (wellFormedB (FSNode.dir "r" true
      [.file "a.txt" 3 [7] true true,
       .dir "s" true [.file "b" 1 [1] true true],
       .symlink "ln" (.dir "t" true [.file "hid" 2 [2] true true]),
       .file "c" 4 [4] true true]) = true) ∧
    (allListableB (FSNode.dir "r" true
      [.file "a.txt" 3 [7] true true,
       .dir "s" true [.file "b" 1 [1] true true],
       .symlink "ln" (.dir "t" true [.file "hid" 2 [2] true true]),
       .file "c" 4 [4] true true]) = true) ∧
    ((walkPaths [] (FSNode.dir "r" true
      [.file "a.txt" 3 [7] true true,
       .dir "s" true [.file "b" 1 [1] true true],
       .symlink "ln" (.dir "t" true [.file "hid" 2 [2] true true]),
       .file "c" 4 [4] true true])).Nodup ∧
    (∀ p, p ∈ walkPaths [] (FSNode.dir "r" true
      [.file "a.txt" 3 [7] true true,
       .dir "s" true [.file "b" 1 [1] true true],
       .symlink "ln" (.dir "t" true [.file "hid" 2 [2] true true]),
       .file "c" 4 [4] true true]) ↔ (p ≠ [] ∧ (entryAt (FSNode.dir "r" true
      [.file "a.txt" 3 [7] true true,
       .dir "s" true [.file "b" 1 [1] true true],
       .symlink "ln" (.dir "t" true [.file "hid" 2 [2] true true]),
       .file "c" 4 [4] true true]) p).isSome)) ∧
    (∀ p ∈ walkPaths [] (FSNode.dir "r" true
      [.file "a.txt" 3 [7] true true,
       .dir "s" true [.file "b" 1 [1] true true],
       .symlink "ln" (.dir "t" true [.file "hid" 2 [2] true true]),
       .file "c" 4 [4] true true]), PreorderBlock (walkPaths [] (FSNode.dir "r" true
      [.file "a.txt" 3 [7] true true,
       .dir "s" true [.file "b" 1 [1] true true],
       .symlink "ln" (.dir "t" true [.file "hid" 2 [2] true true]),
       .file "c" 4 [4] true true])) p)) :=
  ⟨rfl, by decide, by decide,
    safe_walk_preorder_complete _ rfl (by decide) (by decide)⟩
